import Mathlib

/-!
# The distributed lock of `sunpuxi/go-routine-test`

`src/main.go` and `src/test_lock.go` implement a mutual-exclusion lock on top of a
Redis store: `acquireLock` / `acquireTestLock` issue one conditional create with
expiry (`SetNX`), `releaseLock` / `releaseTestLock` issue one scripted
compare-then-delete (`Eval` of a Lua script).

The Go functions and the Lua script are translated from the source.  The store
they talk to (the Redis server and the go-redis client) is not part of the
repository; it is modelled from the store contract of the specification
(§3 data model, §6 consumed store operations): a clock and, per key, at most one
record carrying a value and an absolute expiry deadline.  A record whose deadline
has been reached is treated as absent by every operation.

The `context.Context` argument of the Go functions is always
`context.Background()` (never cancelled, no deadline) and is left out.  A Go
`time.Duration` (a signed number of nanoseconds) and the store's clock are
integers.
-/

namespace DistLock

/-- A non-nil Go `error` value as returned by the client library. -/
structure GoError where
  msg : String
  deriving DecidableEq, Repr

/-- Modelled from the spec: the lock record of §3, which lives inside the external
store: the holder token `value` and the instant `expireAt` at which the store
auto-removes the record (creation time plus `ttl`). -/
structure Record where
  value : String
  expireAt : Int
  deriving DecidableEq, Repr

/-- Modelled from the spec: the external key-value store of §6 (the Redis server,
not under `src/`): its clock `now` and at most one record per key. -/
structure Store where
  now : Int
  recs : String → Option Record

namespace Store

/-- Modelled from the spec: the record currently stored under `key`, "absent" once
its `ttl` has elapsed (§3: a record disappears implicitly when `ttl` elapses). -/
def find (s : Store) (key : String) : Option Record :=
  match s.recs key with
  | some r => if s.now < r.expireAt then some r else none
  | none => none

/-- Modelled from the spec: `GET(key)` of §6, the current value of `key` or
"absent". -/
def get (s : Store) (key : String) : Option String :=
  (s.find key).map Record.value

/-- Modelled from the spec: the remaining time to live of the record under `key`
(§6 persisted state: key name, token string, remaining TTL). -/
def ttl (s : Store) (key : String) : Option Int :=
  (s.find key).map fun r => r.expireAt - s.now

/-- Modelled from the spec: creation of `key→value` with expiry `ttl`, counted
from the store's current time. -/
def put (s : Store) (key value : String) (ttl : Int) : Store :=
  { s with recs := fun k => if k = key then some ⟨value, s.now + ttl⟩ else s.recs k }

/-- Modelled from the spec: removal of the record under `key`. -/
def erase (s : Store) (key : String) : Store :=
  { s with recs := fun k => if k = key then none else s.recs k }

/-- Modelled from the spec: the store's clock moves forward by `d`; records are
untouched and expire by comparison with the clock. -/
def advance (s : Store) (d : Int) : Store :=
  { s with now := s.now + d }

/-- Modelled from the spec: `SET-IF-ABSENT(key, value, ttl)` of §6: atomically
creates `key→value` with expiry `ttl` iff `key` does not currently exist; returns
whether creation occurred. -/
def setIfAbsent (s : Store) (key value : String) (ttl : Int) : Bool × Store :=
  match s.find key with
  | some _ => (false, s)
  | none => (true, s.put key value ttl)

end Store

/-- A value inside the Lua script run by the store. -/
inductive LuaVal where
  | str (s : String)
  | num (n : Int)
  | bool (b : Bool)
  deriving DecidableEq, Repr

/-- Modelled from the spec: `redis.call("get", key)` inside a script: the stored
string, or Lua `false` when the key is absent. -/
def redisCallGet (s : Store) (key : String) : LuaVal :=
  match s.get key with
  | some v => .str v
  | none => .bool false

/-- Modelled from the spec: `redis.call("del", key)` inside a script: removes the
record and returns the number of keys removed. -/
def redisCallDel (s : Store) (key : String) : LuaVal × Store :=
  match s.find key with
  | some _ => (.num 1, s.erase key)
  | none => (.num 0, s)

/-- The Lua script of `releaseLock` / `releaseTestLock` (the same text in both):
```
if redis.call("get", KEYS[1]) == ARGV[1] then
    return redis.call("del", KEYS[1])
else
    return 0
end
```
Lua `==` between a string and `false` is false. -/
def unlockScript (s : Store) (KEYS1 ARGV1 : String) : LuaVal × Store :=
  if redisCallGet s KEYS1 = .str ARGV1 then
    redisCallDel s KEYS1
  else
    (.num 0, s)

/-- The Go `interface{}` value handed back by `Cmd.Result()`. -/
inductive Reply where
  | int64 (n : Int)
  | string (s : String)
  | nil
  deriving DecidableEq, Repr

/-- Modelled from the spec: how the value returned by a script reaches the Go
caller: a number as `int64`, a string as `string`, `true` as `1`, and `false` as
the nil reply, which the client reports as an error. -/
def luaToGo : LuaVal → Reply × Option GoError
  | .num n => (.int64 n, none)
  | .str s => (.string s, none)
  | .bool true => (.int64 1, none)
  | .bool false => (.nil, some ⟨"redis: nil"⟩)

/-- Modelled from the spec: a failing round trip (§4.1, §7 `StoreUnavailable`):
the error `err` that the client reports, and whether the store had `served` the
request before the failure (the reply is lost or times out) or never received it
(the store cannot be reached).  The caller sees only `err` (§4.1: the outcome of
a failed call is unknown; §5: a caller must not assume that an uncompleted call
had no effect). -/
structure Fault where
  err : GoError
  served : Bool
  deriving DecidableEq, Repr

/-- Modelled from the spec: the `*redis.Client` handle `rdb`: the store it is
connected to and the condition of the connection, `some f` when a round trip
fails as `f` describes (§4.1, §7 `StoreUnavailable`). -/
structure Client where
  store : Store
  fault : Option Fault

namespace Client

/-- Modelled from the spec: `rdb.SetNX(ctx, key, value, expiration).Result()`: one
round trip carrying `SET-IF-ABSENT`; a failing round trip reports its error, and
the store has carried the command out when it had served the request. -/
def SetNX (rdb : Client) (key value : String) (expiration : Int) :
    (Bool × Option GoError) × Client :=
  match rdb.fault with
  | some f =>
    ((false, some f.err),
      if f.served then
        { rdb with store := (rdb.store.setIfAbsent key value expiration).2 }
      else rdb)
  | none =>
    let (created, s) := rdb.store.setIfAbsent key value expiration
    ((created, none), { rdb with store := s })

/-- Modelled from the spec: `rdb.Eval(ctx, script, []string{key}, arg).Result()`:
one round trip in which the store runs `script` as a single indivisible
operation (§6 `EVAL`); a failing round trip reports its error, and the store has
run the script when it had served the request. -/
def Eval (rdb : Client) (script : Store → String → String → LuaVal × Store)
    (key arg : String) : (Reply × Option GoError) × Client :=
  match rdb.fault with
  | some f =>
    ((.nil, some f.err),
      if f.served then { rdb with store := (script rdb.store key arg).2 } else rdb)
  | none =>
    let (v, s) := script rdb.store key arg
    (luaToGo v, { rdb with store := s })

/-- Modelled from the spec: `rdb.Get(ctx, key).Result()`: `GET(key)` of §6; an
absent key is reported as the client's nil error. -/
def Get (rdb : Client) (key : String) : String × Option GoError :=
  match rdb.fault with
  | some f => ("", some f.err)
  | none =>
    match rdb.store.get key with
    | some v => (v, none)
    | none => ("", some ⟨"redis: nil"⟩)

/-- Time `d` passes (`time.Sleep(d)` in a caller, or any wait): only the store's
clock moves. -/
def sleep (rdb : Client) (d : Int) : Client :=
  { rdb with store := rdb.store.advance d }

end Client

/-- `acquireLock` of `src/main.go`:
```
result, err := rdb.SetNX(ctx, key, value, duration).Result()
if err != nil { return false, err }
return result, nil
```
The second component is the client after the call. -/
def acquireLock (rdb : Client) (key value : String) (duration : Int) :
    (Bool × Option GoError) × Client :=
  match rdb.SetNX key value duration with
  | ((_, some err), rdb') => ((false, some err), rdb')
  | ((result, none), rdb') => ((result, none), rdb')

/-- `acquireTestLock` of `src/test_lock.go`, the same body as `acquireLock`. -/
def acquireTestLock (rdb : Client) (key value : String) (duration : Int) :
    (Bool × Option GoError) × Client :=
  match rdb.SetNX key value duration with
  | ((_, some err), rdb') => ((false, some err), rdb')
  | ((result, none), rdb') => ((result, none), rdb')

/-- `releaseLock` of `src/main.go`:
```
result, err := rdb.Eval(ctx, script, []string{key}, value).Result()
if err != nil { return false, err }
return result.(int64) == 1, nil
```
`none` is the run-time panic of the type assertion `result.(int64)` on a value
that is not an `int64`. -/
def releaseLock (rdb : Client) (key value : String) :
    Option ((Bool × Option GoError) × Client) :=
  match rdb.Eval unlockScript key value with
  | ((_, some err), rdb') => some ((false, some err), rdb')
  | ((.int64 n, none), rdb') => some ((decide (n = 1), none), rdb')
  | ((_, none), _) => none

/-- `releaseTestLock` of `src/test_lock.go`, the same body as `releaseLock`. -/
def releaseTestLock (rdb : Client) (key value : String) :
    Option ((Bool × Option GoError) × Client) :=
  match rdb.Eval unlockScript key value with
  | ((_, some err), rdb') => some ((false, some err), rdb')
  | ((.int64 n, none), rdb') => some ((decide (n = 1), none), rdb')
  | ((_, none), _) => none

/-- A store with no record at all, at time `t`. -/
def emptyStore (t : Int) : Store := ⟨t, fun _ => none⟩

/-- A reachable client connected to an empty store at time `0`. -/
def freshClient : Client := ⟨emptyStore 0, none⟩

/-- One `Acquire` call as the store gets to serve it: the time `wait` that passes
before the store serves it, the presented `token` and the presented `ttl`. -/
structure AcquireCall where
  wait : Int
  token : String
  ttl : Int
  deriving DecidableEq, Repr

/-- The store serves the `acquireTestLock` calls on `key` one after the other, in
the order of the list (§5: the store serializes the conditional creates on a key);
no other operation is served in between.  The results are listed in that order. -/
def serveAcquires (rdb : Client) (key : String) :
    List AcquireCall → List (Bool × Option GoError) × Client
  | [] => ([], rdb)
  | c :: rest =>
    let (r, rdb1) := acquireTestLock (rdb.sleep c.wait) key c.token c.ttl
    let (rs, rdb2) := serveAcquires rdb1 key rest
    (r :: rs, rdb2)

/-- The time that passes while the store serves `calls`. -/
def totalWait (calls : List AcquireCall) : Int :=
  (calls.map AcquireCall.wait).sum

/-! ### The commands sent over the connection

The same four Go functions once more, now over a connection that also records
every command it sends, so that what a call puts on the wire can be stated.  -/

/-- A command sent to the store over the connection. -/
inductive Request where
  | ping
  | setnx (key value : String) (expiration : Int)
  | eval (script : Store → String → String → LuaVal × Store) (key arg : String)
  | get (key : String)
  | set (key value : String) (expiration : Int)
  | existsKey (key : String)
  | del (key : String)

/-- The key of a lock command: `SetNX` is the command of Acquire and `Eval` the
command of Release; no other command is a lock command. -/
def Request.lockKey : Request → Option String
  | .setnx key _ _ => some key
  | .eval _ key _ => some key
  | _ => none

/-- The keys of the lock commands among `sent`, in the order sent. -/
def lockKeys (sent : List Request) : List String :=
  sent.filterMap Request.lockKey

/-- The connection `rdb` together with the commands sent over it so far, oldest
first. -/
structure Wire where
  rdb : Client
  sent : List Request

namespace Wire

/-- The call `rdb.SetNX(ctx, key, value, expiration).Result()`, recorded. -/
def SetNX (w : Wire) (key value : String) (expiration : Int) :
    (Bool × Option GoError) × Wire :=
  ((w.rdb.SetNX key value expiration).1,
    ⟨(w.rdb.SetNX key value expiration).2, w.sent ++ [.setnx key value expiration]⟩)

/-- The call `rdb.Eval(ctx, script, []string{key}, arg).Result()`, recorded. -/
def Eval (w : Wire) (script : Store → String → String → LuaVal × Store)
    (key arg : String) : (Reply × Option GoError) × Wire :=
  ((w.rdb.Eval script key arg).1,
    ⟨(w.rdb.Eval script key arg).2, w.sent ++ [.eval script key arg]⟩)

/-- The call `rdb.Get(ctx, key).Result()`, recorded. -/
def Get (w : Wire) (key : String) : (String × Option GoError) × Wire :=
  (w.rdb.Get key, ⟨w.rdb, w.sent ++ [.get key]⟩)

/-- Modelled from the spec: `rdb.Ping(ctx).Result()`: one round trip that fails
exactly when the connection is faulty (§6: non-zero exit on inability to reach
the store), recorded. -/
def Ping (w : Wire) : (String × Option GoError) × Wire :=
  match w.rdb.fault with
  | some f => (("", some f.err), ⟨w.rdb, w.sent ++ [.ping]⟩)
  | none => (("PONG", none), ⟨w.rdb, w.sent ++ [.ping]⟩)

/-- Time `d` passes (`time.Sleep(d)`). -/
def sleep (w : Wire) (d : Int) : Wire :=
  { w with rdb := w.rdb.sleep d }

end Wire

namespace Traced

/-- `acquireLock` of `src/main.go` over the recording connection. -/
def acquireLock (w : Wire) (key value : String) (duration : Int) :
    (Bool × Option GoError) × Wire :=
  match w.SetNX key value duration with
  | ((_, some err), w') => ((false, some err), w')
  | ((result, none), w') => ((result, none), w')

/-- `acquireTestLock` of `src/test_lock.go` over the recording connection. -/
def acquireTestLock (w : Wire) (key value : String) (duration : Int) :
    (Bool × Option GoError) × Wire :=
  match w.SetNX key value duration with
  | ((_, some err), w') => ((false, some err), w')
  | ((result, none), w') => ((result, none), w')

/-- `releaseLock` of `src/main.go` over the recording connection; `none` is the
panic of `result.(int64)`. -/
def releaseLock (w : Wire) (key value : String) :
    Option ((Bool × Option GoError) × Wire) :=
  match w.Eval unlockScript key value with
  | ((_, some err), w') => some ((false, some err), w')
  | ((.int64 n, none), w') => some ((decide (n = 1), none), w')
  | ((_, none), _) => none

/-- `releaseTestLock` of `src/test_lock.go` over the recording connection. -/
def releaseTestLock (w : Wire) (key value : String) :
    Option ((Bool × Option GoError) × Wire) :=
  match w.Eval unlockScript key value with
  | ((_, some err), w') => some ((false, some err), w')
  | ((.int64 n, none), w') => some ((decide (n = 1), none), w')
  | ((_, none), _) => none

end Traced

/-- A recording connection to an empty store at time `0`, nothing sent yet. -/
def freshWire : Wire := ⟨freshClient, []⟩

/-! ### Holder tokens

The callers of the lock build their token with `fmt.Sprintf`.  `%s` copies the
string argument and `%d` writes a signed integer in decimal: a minus sign for a
negative number, then the digits without leading zeros (`0` for zero). -/

/-- The decimal digits of a natural number, most significant first, as `%d`
writes them. -/
def fmtNat (n : Nat) : List Char :=
  if n = 0 then ['0'] else ((Nat.digits 10 n).map Nat.digitChar).reverse

/-- The verb `%d` of `fmt.Sprintf` on an integer. -/
def fmtInt (n : Int) : String :=
  ⟨if n < 0 then '-' :: fmtNat n.natAbs else fmtNat n.toNat⟩

/-- `fmt.Sprintf("process_%s_%d", processID, nano)`, the token of
`testConcurrentLock`, `testLockSafety` and `testLockTimeout`, where `nano` is
`time.Now().UnixNano()`. -/
def processToken (processID : String) (nano : Int) : String :=
  "process_" ++ processID ++ "_" ++ fmtInt nano

/-- `fmt.Sprintf("goroutine_%d_%d", goroutineID, nano)`, the token of
`TestDistributedLockConcurrency`. -/
def goroutineToken (goroutineID nano : Int) : String :=
  "goroutine_" ++ fmtInt goroutineID ++ "_" ++ fmtInt nano

/-- `fmt.Sprintf("race_%d_%d", goroutineID, nano)`, the token of
`TestDistributedLockRaceCondition`. -/
def raceToken (goroutineID nano : Int) : String :=
  "race_" ++ fmtInt goroutineID ++ "_" ++ fmtInt nano

/-- The value of a decimal digit character (`0` for any other character). -/
def digitValue (c : Char) : Nat := c.toNat - 48

/-- Reads back the digits written by `fmtNat`. -/
def readNat (cs : List Char) : Nat :=
  Nat.ofDigits 10 (cs.reverse.map digitValue)

/-- Reads back the characters written by `fmtInt`. -/
def readInt : List Char → Int
  | '-' :: cs => -(readNat cs : Int)
  | cs => (readNat cs : Int)

/-! ### The callers of the lock

The exercises of `src/test_lock.go` and the demonstration of `src/main.go`, over
the recording connection.  Printing and logging are left out.  The value of
`time.Now().UnixNano()` read by an exercise is the argument `nano`.  `none` is a
run-time panic. -/

/-- Go `time.Second`, in nanoseconds. -/
def Second : Int := 1000000000

/-- The tokens presented to Acquire among `sent`, in the order sent. -/
def acquireTokens (sent : List Request) : List String :=
  sent.filterMap fun r =>
    match r with
    | .setnx _ value _ => some value
    | _ => none

/-- The store commands of `basicOperations` that the store contract of the
specification does not describe (`SET`, `EXISTS`, `DEL`): what they do to the
store and what `EXISTS` counts are parameters. -/
structure PlainCommands where
  set : Store → String → String → Int → Store
  existsCount : Store → String → Int
  del : Store → String → Store

namespace Wire

/-- The call `rdb.Set(ctx, key, value, expiration).Err()`, recorded. -/
def Set (pc : PlainCommands) (w : Wire) (key value : String) (expiration : Int) :
    Option GoError × Wire :=
  match w.rdb.fault with
  | some f =>
    (some f.err,
      ⟨if f.served then { w.rdb with store := pc.set w.rdb.store key value expiration }
        else w.rdb,
        w.sent ++ [.set key value expiration]⟩)
  | none =>
    (none, ⟨⟨pc.set w.rdb.store key value expiration, none⟩,
      w.sent ++ [.set key value expiration]⟩)

/-- The call `rdb.Exists(ctx, key).Result()`, recorded. -/
def Exists (pc : PlainCommands) (w : Wire) (key : String) :
    (Int × Option GoError) × Wire :=
  match w.rdb.fault with
  | some f => ((0, some f.err), ⟨w.rdb, w.sent ++ [.existsKey key]⟩)
  | none => ((pc.existsCount w.rdb.store key, none), ⟨w.rdb, w.sent ++ [.existsKey key]⟩)

/-- The call `rdb.Del(ctx, key).Err()`, recorded. -/
def Del (pc : PlainCommands) (w : Wire) (key : String) : Option GoError × Wire :=
  match w.rdb.fault with
  | some f =>
    (some f.err,
      ⟨if f.served then { w.rdb with store := pc.del w.rdb.store key } else w.rdb,
        w.sent ++ [.del key]⟩)
  | none => (none, ⟨⟨pc.del w.rdb.store key, none⟩, w.sent ++ [.del key]⟩)

end Wire

namespace Traced

/-- `testConcurrentLock` of `src/test_lock.go`: Acquire `"test_concurrent_lock"`
for 10 s; on an error return; when acquired, work for five times one second and
Release with the same token. -/
def testConcurrentLock (w : Wire) (processID : String) (nano : Int) : Option Wire :=
  match acquireTestLock w "test_concurrent_lock" (processToken processID nano)
      (10 * Second) with
  | ((_, some _), w1) => some w1
  | ((true, none), w1) =>
    (releaseTestLock ((fun x : Wire => x.sleep (1 * Second))^[5] w1) "test_concurrent_lock"
      (processToken processID nano)).map Prod.snd
  | ((false, none), w1) => some w1

/-- `testLockSafety` of `src/test_lock.go`: Acquire `"test_safety_lock"` for 15 s;
when acquired, Release with `"wrong_value"` and then Release with the own
token. -/
def testLockSafety (w : Wire) (processID : String) (nano : Int) : Option Wire :=
  match acquireTestLock w "test_safety_lock" (processToken processID nano)
      (15 * Second) with
  | ((_, some _), w1) => some w1
  | ((true, none), w1) =>
    match releaseTestLock w1 "test_safety_lock" "wrong_value" with
    | none => none
    | some (_, w2) =>
      (releaseTestLock w2 "test_safety_lock" (processToken processID nano)).map Prod.snd
  | ((false, none), w1) => some w1

/-- `testLockTimeout` of `src/test_lock.go`: Acquire `"test_timeout_lock"` for
5 s; when acquired, sleep `lockDuration + 2 s` and Release with the own token. -/
def testLockTimeout (w : Wire) (processID : String) (nano : Int) : Option Wire :=
  match acquireTestLock w "test_timeout_lock" (processToken processID nano)
      (5 * Second) with
  | ((_, some _), w1) => some w1
  | ((true, none), w1) =>
    (releaseTestLock (w1.sleep (5 * Second + 2 * Second)) "test_timeout_lock"
      (processToken processID nano)).map Prod.snd
  | ((false, none), w1) => some w1

/-- `testLockMain` of `src/test_lock.go` on the argument vector `args` (`os.Args`)
and the connection `w` opened by `redis.NewClient`: with fewer than two arguments
print the usage and return; otherwise take the process id, the test type
(`"concurrent"` when omitted), ping the store (`log.Fatal`, exit code 1, on
failure) and switch on the test type.  The result is the exit code and the
connection at the end. -/
def testLockMain (args : List String) (nano : Int) (w : Wire) : Option (Nat × Wire) :=
  match args with
  | [] => some (0, w)
  | [_] => some (0, w)
  | _ :: processID :: rest =>
    let testType := match rest with
      | [] => "concurrent"
      | t :: _ => t
    match w.Ping with
    | ((_, some _), w1) => some (1, w1)
    | ((_, none), w1) =>
      if testType = "concurrent" then
        (testConcurrentLock w1 processID nano).map fun w2 => (0, w2)
      else if testType = "safety" then
        (testLockSafety w1 processID nano).map fun w2 => (0, w2)
      else if testType = "timeout" then
        (testLockTimeout w1 processID nano).map fun w2 => (0, w2)
      else
        some (0, w1)

/-- The connection test of `main` in `src/main.go`: up to `remaining` pings, the
loop ending at the first success, with a sleep of 2 s after a failure that is not
the last attempt; the result is the last error (`err`, initially nil). -/
def pingWithRetry : Nat → Option GoError → Wire → Option GoError × Wire
  | 0, err, w => (err, w)
  | remaining + 1, _, w =>
    match w.Ping with
    | ((_, none), w1) => (none, w1)
    | ((_, some e), w1) =>
      pingWithRetry remaining (some e) (if 0 < remaining then w1.sleep (2 * Second) else w1)

/-- `basicOperations` of `src/main.go`: `SET key1`, `GET key1`, `SET key2` with
10 s, `EXISTS key1`, `DEL key1`, returning at the first error. -/
def basicOperations (pc : PlainCommands) (w : Wire) : Wire :=
  match w.Set pc "key1" "value1" 0 with
  | (some _, w1) => w1
  | (none, w1) =>
    match w1.Get "key1" with
    | ((_, some _), w2) => w2
    | ((_, none), w2) =>
      match w2.Set pc "key2" "value2" (10 * Second) with
      | (some _, w3) => w3
      | (none, w3) =>
        match w3.Exists pc "key1" with
        | ((_, some _), w4) => w4
        | ((_, none), w4) => (w4.Del pc "key1").2

/-- `distributedLockExample` of `src/main.go`: Acquire `"mylock"` with the token
`"lock_value_123"` for 30 s; on an error return; when acquired, work for 2 s and
Release with the same token. -/
def distributedLockExample (w : Wire) : Option Wire :=
  match acquireLock w "mylock" "lock_value_123" (30 * Second) with
  | ((_, some _), w1) => some w1
  | ((true, none), w1) =>
    (releaseLock (w1.sleep (2 * Second)) "mylock" "lock_value_123").map Prod.snd
  | ((false, none), w1) => some w1

/-- `main` of `src/main.go` on the argument vector `_args` (`os.Args`, which the
body never reads) and the connection `w` opened by `redis.NewClient`: test the
connection with up to 3 pings (`log.Fatal`, exit code 1, when all fail), run
`basicOperations`, then `distributedLockExample`.  The result is the exit code and
the connection at the end. -/
def main (pc : PlainCommands) (_args : List String) (w : Wire) : Option (Nat × Wire) :=
  match pingWithRetry 3 none w with
  | (some _, w1) => some (1, w1)
  | (none, w1) => (distributedLockExample (basicOperations pc w1)).map fun w2 => (0, w2)

end Traced

/-! ### The race of the concurrency test -/

/-- The goroutines of `TestDistributedLockConcurrency` as the store sees them.
Each goroutine, known by its token, calls `acquireTestLock` once and, if it was
granted the lock, later calls `releaseTestLock` once with its token.  `started`
are the goroutines whose Acquire has been served, `holding` the winners whose
Release has not been served yet, `acquired` and `released` the results in the
order served. -/
structure Race where
  rdb : Client
  started : List String
  holding : List String
  acquired : List (String × Bool)
  released : List (String × Bool)

/-- The store serves the next call of the goroutine `token`: its Release if it holds
the lock, nothing if it has finished, its Acquire otherwise.  A call that fails
with an error is reported by the test and counts for nothing. -/
def Race.step (key : String) (ttl : Int) (r : Race) (token : String) : Race :=
  if token ∈ r.holding then
    match releaseTestLock r.rdb key token with
    | some ((b, none), rdb') =>
      { r with rdb := rdb', holding := r.holding.erase token,
               released := r.released ++ [(token, b)] }
    | some ((_, some _), rdb') => { r with rdb := rdb', holding := r.holding.erase token }
    | none => r
  else if token ∈ r.started then r
  else
    match acquireTestLock r.rdb key token ttl with
    | ((_, some _), rdb') => { r with rdb := rdb', started := token :: r.started }
    | ((b, none), rdb') =>
      { r with rdb := rdb', started := token :: r.started,
               holding := if b then token :: r.holding else r.holding,
               acquired := r.acquired ++ [(token, b)] }

/-- The store serves the calls of the goroutines in the order of `schedule`. -/
def Race.run (key : String) (ttl : Int) (r : Race) (schedule : List String) : Race :=
  schedule.foldl (Race.step key ttl) r

/-- The race before any call: nobody has started. -/
def Race.init (rdb : Client) : Race := ⟨rdb, [], [], [], []⟩

/-- The `successCount` of the test: the number of Acquire calls that returned
`true`. -/
def Race.successCount (r : Race) : Nat :=
  (r.acquired.filter fun a => a.2).length

/-- Ten pairwise distinct tokens, one per goroutine of the test. -/
def tenTokens : List String :=
  ["goroutine_0_1", "goroutine_1_1", "goroutine_2_1", "goroutine_3_1", "goroutine_4_1",
   "goroutine_5_1", "goroutine_6_1", "goroutine_7_1", "goroutine_8_1", "goroutine_9_1"]

end DistLock

/-! # The user state machine of `src/fsm-test/main.go`

The program drives a `github.com/looplab/fsm` state machine.  The library is
external; what the program uses of it is: `fsm.NewFSM(initial, events,
callbacks)` starts in `initial` and allows the event `e.Name` in every state of
`e.Src`, leading to `e.Dst`; `FSM.Event(ctx, name)` returns an error and changes
nothing when the event is not allowed in the current state, and otherwise moves
to the destination and runs the `enter_state` callback. -/

namespace FsmTest

/-- The state constant `StatePendingReview`. -/
def StatePendingReview : String := "pending_review"
/-- The state constant `StateApproved`. -/
def StateApproved : String := "approved"
/-- The state constant `StateRejected`. -/
def StateRejected : String := "rejected"
/-- The state constant `StateActive`. -/
def StateActive : String := "active"
/-- The state constant `StateInactive`. -/
def StateInactive : String := "inactive"
/-- The state constant `StateOverdue`. -/
def StateOverdue : String := "overdue"

/-- The event constant `EventApprove`. -/
def EventApprove : String := "approve"
/-- The event constant `EventReject`. -/
def EventReject : String := "reject"
/-- The event constant `EventConsume`. -/
def EventConsume : String := "consume"
/-- The event constant `EventNoConsume30d`. -/
def EventNoConsume30d : String := "no_consume_30d"
/-- The event constant `EventNoConsume90d`. -/
def EventNoConsume90d : String := "no_consume_90d"

/-- One entry of `fsm.Events`: `fsm.EventDesc{Name, Src, Dst}`. -/
structure EventDesc where
  Name : String
  Src : List String
  Dst : String
  deriving DecidableEq, Repr

/-- The state machine `*fsm.FSM`: its current state and its event table. -/
structure FSM where
  current : String
  events : List EventDesc
  deriving DecidableEq, Repr

/-- The error returned by `FSM.Event`. -/
inductive FsmError where
  | invalidEvent (event state : String)
  | unknownEvent (event : String)
  | noTransition
  deriving DecidableEq, Repr

/-- The struct `UserFsm`: `ID`, `Name`, the state machine `FSM` and the field
`CurrentState` that records the state for persistence. -/
structure UserFsm where
  ID : String
  Name : String
  FSM : FSM
  CurrentState : String
  deriving DecidableEq, Repr

/-- The `fsm.Events` literal of `NewUser`. -/
def userEvents : List EventDesc :=
  [⟨EventApprove, [StatePendingReview], StateApproved⟩,
   ⟨EventReject, [StatePendingReview], StateRejected⟩,
   ⟨EventNoConsume30d, [StateApproved, StateActive], StateInactive⟩,
   ⟨EventNoConsume90d, [StateInactive], StateOverdue⟩,
   ⟨EventConsume, [StateInactive, StateOverdue], StateActive⟩]

/-- `NewUser` of `src/fsm-test/main.go`: the struct is built with
`CurrentState: currentStatus`, and the state machine is started by
`fsm.NewFSM(user.CurrentState, ...)`. -/
def NewUser (id name currentStatus : String) : UserFsm :=
  { ID := id, Name := name, CurrentState := currentStatus,
    FSM := ⟨currentStatus, userEvents⟩ }

/-- The destination of `event` in the current state, if the event is allowed
there (the library's transition table, later entries overriding earlier ones). -/
def FSM.destination (f : FSM) (event : String) : Option String :=
  f.events.foldl
    (fun acc e => if e.Name = event ∧ f.current ∈ e.Src then some e.Dst else acc) none

/-- The call `u.FSM.Event(ctx, event)` on a user: an error and no change when the
event is not allowed in the current state or leads to the current state;
otherwise the machine moves to the destination and the `enter_state` callback of
`NewUser` sets `user.CurrentState = e.Dst` (`updateStateInDB` returns nil). -/
def UserFsm.Event (u : UserFsm) (event : String) : Option FsmError × UserFsm :=
  match u.FSM.destination event with
  | none =>
    if u.FSM.events.any (fun e => e.Name = event) then
      (some (.invalidEvent event u.FSM.current), u)
    else
      (some (.unknownEvent event), u)
  | some dst =>
    if u.FSM.current = dst then (some .noTransition, u)
    else (none, { u with FSM := { u.FSM with current := dst }, CurrentState := dst })

/-- The method `Approve`. -/
def UserFsm.Approve (u : UserFsm) : Option FsmError × UserFsm := u.Event EventApprove

/-- The user built by `main`: `NewUser("111", "Daniel", StateApproved)`. -/
def mainUser : UserFsm := NewUser "111" "Daniel" StateApproved

/-- The method `Reject`. -/
def UserFsm.Reject (u : UserFsm) : Option FsmError × UserFsm := u.Event EventReject

/-- The method `MarkInactiveAfter30d`. -/
def UserFsm.MarkInactiveAfter30d (u : UserFsm) : Option FsmError × UserFsm :=
  u.Event EventNoConsume30d

/-- The method `MarkOverdueAfter90d`. -/
def UserFsm.MarkOverdueAfter90d (u : UserFsm) : Option FsmError × UserFsm :=
  u.Event EventNoConsume90d

/-- The method `OnConsume`. -/
def UserFsm.OnConsume (u : UserFsm) : Option FsmError × UserFsm := u.Event EventConsume

/-- A call of one of the five methods of `UserFsm` that trigger an event. -/
inductive Call where
  | Approve
  | Reject
  | MarkInactiveAfter30d
  | MarkOverdueAfter90d
  | OnConsume
  deriving DecidableEq, Repr

/-- The returned error and the user after one method call. -/
def UserFsm.call (u : UserFsm) : Call → Option FsmError × UserFsm
  | .Approve => u.Approve
  | .Reject => u.Reject
  | .MarkInactiveAfter30d => u.MarkInactiveAfter30d
  | .MarkOverdueAfter90d => u.MarkOverdueAfter90d
  | .OnConsume => u.OnConsume

/-- The user after a sequence of method calls, whatever each of them returned. -/
def UserFsm.calls (u : UserFsm) (cs : List Call) : UserFsm :=
  cs.foldl (fun v c => (v.call c).2) u

end FsmTest

/-! # The sum of squares of `src/go-UC-test/2025-11-29/test1/test.go` -/

namespace SumOfSquares

/-- The value of an `int64` computation: the result wraps modulo `2^64` into
`[-2^63, 2^63)`. -/
def wrap64 (x : Int) : Int :=
  (x + 9223372036854775808) % 18446744073709551616 - 9223372036854775808

/-- The loop `for j := start; j <= stop; j++ { acc += j * j }` in `int64`
arithmetic, run for at most `fuel` iterations; `(stop - start + 1)` iterations
finish it whenever `stop` is below the largest `int64`. -/
def squaresLoop : Nat → Int → Int → Int → Int
  | 0, _, _, acc => acc
  | fuel + 1, j, stop, acc =>
    if j ≤ stop then squaresLoop fuel (wrap64 (j + 1)) stop (wrap64 (acc + wrap64 (j * j)))
    else acc

/-- `serialSumOfSquares`: `sum += i * i` for `i` from `1` to `n`. -/
def serialSumOfSquares (n : Int) : Int :=
  squaresLoop n.toNat 1 n 0

/-- `concurrentSumOfSquares`: `workerCount ≤ 0` is replaced by `1`;
`chunkSize := n / int64(workerCount)`; worker `i` sums the squares from
`start = i * chunkSize` to `end = start + chunkSize - 1` into `partSums[i]` (each
goroutine writes its own slot, and the sum is read after `wg.Wait()`); the result
is the total of `partSums` plus `n * n`. -/
def concurrentSumOfSquares (n : Int) (workerCount : Int) : Int :=
  let workers : Nat := if workerCount ≤ 0 then 1 else workerCount.toNat
  let chunkSize : Int := Int.tdiv n workers
  let partSums : List Int := (List.range workers).map fun workerIndex =>
    let start := wrap64 (workerIndex * chunkSize)
    let stop := wrap64 (start + chunkSize - 1)
    squaresLoop (stop - start + 1).toNat start stop 0
  let total := partSums.foldl (fun t v => wrap64 (t + v)) 0
  wrap64 (total + wrap64 (n * n))

/-- The specification of both functions: `1² + 2² + … + n²`. -/
def specSumOfSquares (n : Nat) : Int :=
  ((List.range (n + 1)).map fun i : Nat => (i : Int) * i).sum

end SumOfSquares

/-! # The worker pool of `src/go-UC-test/2025-11-29/test2/main.go` -/

namespace WorkerPool

open SumOfSquares (wrap64)

/-- The constant `heavyComputeRounds`. -/
def heavyComputeRounds : Nat := 100

/-- One round of `heavyCompute`: `result = result*result%1000 + 1` in 64-bit `int`
arithmetic (`%` truncates toward zero). -/
def heavyRound (result : Int) : Int :=
  wrap64 (Int.tmod (wrap64 (result * result)) 1000 + 1)

/-- `heavyCompute`: `heavyComputeRounds` rounds starting from `x`. -/
def heavyCompute (x : Int) : Int :=
  heavyRound^[heavyComputeRounds] x

/-- `serialCompute`: `sum += int64(heavyCompute(item))` over the slice. -/
def serialCompute (arr : List Int) : Int :=
  arr.foldl (fun sum item => wrap64 (sum + heavyCompute item)) 0

/-- `concurrentCompute`: `workerCount ≤ 0` is replaced by `1`; every element sent
on `taskChan` is received by exactly one worker, `sched i` (taken modulo the number
of workers) being the worker that receives the element at position `i`; a worker
adds `heavyCompute` of the elements it receives, in the order sent, to its
`localSum` and stores it in `workerSums[workerIndex]`; after `wg.Wait()` the
`workerSums` are added up. -/
def concurrentCompute (arr : List Int) (workerCount : Int) (sched : Nat → Nat) : Int :=
  let workers : Nat := if workerCount ≤ 0 then 1 else workerCount.toNat
  let workerSums : List Int := (List.range workers).map fun workerIndex =>
    ((arr.enum.filter fun p => sched p.1 % workers = workerIndex).map Prod.snd).foldl
      (fun localSum item => wrap64 (localSum + heavyCompute item)) 0
  workerSums.foldl (fun total v => wrap64 (total + v)) 0

/-- The specification of both functions: the sum of `heavyCompute x` over the
elements of the slice. -/
def specCompute (arr : List Int) : Int :=
  (arr.map heavyCompute).sum

end WorkerPool

/-! # The pipeline of `src/go-UC-test/2025-12-01/test3/main.go`

A channel is represented by the sequence of the values sent on it before it is
closed.  A stage starts one goroutine that ranges over its input channel and sends
one result per value received on its unbuffered output channel, which it closes at
the end. -/

namespace Pipeline

open SumOfSquares (wrap64)

/-- The type `Stage`: `func(<-chan int) <-chan int`. -/
abbrev Stage := List Int → List Int

/-- The stage `square`: `result := value * value`. -/
def square (input : List Int) : List Int :=
  input.map fun value => wrap64 (value * value)

/-- The stage `add`: `result := value + 10`. -/
def add (input : List Int) : List Int :=
  input.map fun value => wrap64 (value + 10)

/-- The stage `multiply`: `result := value * 2`. -/
def multiply (input : List Int) : List Int :=
  input.map fun value => wrap64 (value * 2)

/-- `pipeline`: `current := input; for _, stage := range stages { current =
stage(current) }; return current`. -/
def pipeline (input : List Int) (stages : List Stage) : List Int :=
  stages.foldl (fun current stage => stage current) input

/-- `generateInput`: the values `1, ..., count`. -/
def generateInput (count : Nat) : List Int :=
  (List.range count).map fun i => ((i + 1 : Nat) : Int)

/-- The network of goroutines built by `pipeline(input, square, add, multiply)`,
step by step.  `source` are the values still to be received from `input`; `sq`,
`ad` and `mu` are the result that the goroutine of `square`, `add` and `multiply`
has computed and is waiting to send on its unbuffered output channel (`none`: the
goroutine is waiting to receive); `out` are the values received so far from the
last channel. -/
structure Net where
  source : List Int
  sq : Option Int
  ad : Option Int
  mu : Option Int
  out : List Int
  deriving DecidableEq, Repr

/-- A communication on one of the four channels: a send and the matching receive
happen together, the channels being unbuffered. -/
inductive NetStep where
  | feed
  | squareToAdd
  | addToMultiply
  | collect
  deriving DecidableEq, Repr

/-- The network after one communication, `none` if it cannot happen: the sender
must hold a value and the receiving goroutine must be waiting to receive, after
which it computes its result and holds it. -/
def Net.step (n : Net) : NetStep → Option Net
  | .feed =>
    match n.source, n.sq with
    | value :: rest, none => some { n with source := rest, sq := some (wrap64 (value * value)) }
    | _, _ => none
  | .squareToAdd =>
    match n.sq, n.ad with
    | some value, none => some { n with sq := none, ad := some (wrap64 (value + 10)) }
    | _, _ => none
  | .addToMultiply =>
    match n.ad, n.mu with
    | some value, none => some { n with ad := none, mu := some (wrap64 (value * 2)) }
    | _, _ => none
  | .collect =>
    match n.mu with
    | some value => some { n with mu := none, out := n.out ++ [value] }
    | none => none

/-- The network after the communications `steps`, `none` if one of them cannot
happen in its turn. -/
def Net.run (n : Net) : List NetStep → Option Net
  | [] => some n
  | st :: steps =>
    match n.step st with
    | none => none
    | some next => next.run steps

/-- The network at the start: nothing received yet. -/
def Net.init (xs : List Int) : Net := ⟨xs, none, none, none, []⟩

/-- Every value has been received from `input` and no goroutine holds a result:
the channels are closed one after the other and the range loop of the collector
ends. -/
def Net.finished (n : Net) : Bool :=
  n.source.isEmpty && n.sq.isNone && n.ad.isNone && n.mu.isNone

/-- The sequence the network will have emitted in the end: what is out, followed by
what the goroutines hold and what the source still has, each taken through the
stages it has yet to pass. -/
def Net.flow (n : Net) : List Int :=
  n.out ++ n.mu.toList ++ multiply n.ad.toList ++ multiply (add n.sq.toList) ++
    multiply (add (square n.source))

end Pipeline

/-! # The buffer pool of `src/go-UC-test/2025-12-02/test2/main.go`

Byte arrays live in a memory of cells named by addresses; `next` is the first
address not yet allocated.  The `sync.Pool` named `bufferPool` is the list of the
addresses of the buffers it currently holds. -/

namespace BufferPool

/-- The memory and the pool. -/
structure Mem where
  cells : Nat → List UInt8
  next : Nat
  pool : List Nat

/-- The bytes of the string literal of the prefix. -/
def prefixBytes : List UInt8 := "前缀: ".toUTF8.toList

/-- The bytes of the string literal of the suffix. -/
def suffixBytes : List UInt8 := " :后缀".toUTF8.toList

/-- `processWithoutPool`: a new byte slice to which the prefix, `data` and the
suffix are appended. -/
def processWithoutPool (data : List UInt8) : List UInt8 :=
  (([] ++ prefixBytes) ++ data) ++ suffixBytes

/-- A new array holding `bytes`: its address and the memory after the
allocation. -/
def Mem.alloc (m : Mem) (bytes : List UInt8) : Nat × Mem :=
  (m.next, { m with cells := fun a => if a = m.next then bytes else m.cells a,
                    next := m.next + 1 })

/-- The memory after the content of the cell `addr` is replaced by `bytes`. -/
def Mem.write (m : Mem) (addr : Nat) (bytes : List UInt8) : Mem :=
  { m with cells := fun a => if a = addr then bytes else m.cells a }

/-- `bufferPool.Get()`: the pool hands out one of the buffers it holds, the one at
position `i` of the list when `pick = some i` is a position of the list, and
otherwise calls `New`, which allocates an empty `bytes.Buffer`. -/
def Mem.get (m : Mem) (pick : Option Nat) : Nat × Mem :=
  match pick.bind fun i => (m.pool.get? i).map fun b => (i, b) with
  | some (i, b) => (b, { m with pool := m.pool.eraseIdx i })
  | none => m.alloc []

/-- `processWithPool`: get a buffer, `Reset` it, write the prefix, `data` and the
suffix, copy the bytes of the buffer to a new slice `result`, and (deferred) put the
buffer back in the pool.  The result is the address of `result` and the memory
after the call. -/
def processWithPool (m : Mem) (pick : Option Nat) (data : List UInt8) : Nat × Mem :=
  let (buf, m1) := m.get pick
  let m2 := m1.write buf []
  let m3 := m2.write buf (m2.cells buf ++ prefixBytes)
  let m4 := m3.write buf (m3.cells buf ++ data)
  let m5 := m4.write buf (m4.cells buf ++ suffixBytes)
  let (result, m6) := m5.alloc (m5.cells buf)
  (result, { m6 with pool := buf :: m6.pool })

/-- What happens to the pool after a call: another call of `processWithPool`, or
the garbage collector dropping the buffer at a position of the pool. -/
inductive Later where
  | call (pick : Option Nat) (data : List UInt8)
  | drop (i : Nat)

/-- The memory after the events `evs`. -/
def Mem.after (m : Mem) (evs : List Later) : Mem :=
  evs.foldl (fun cur ev =>
    match ev with
    | .call pick data => (processWithPool cur pick data).2
    | .drop i => { cur with pool := cur.pool.eraseIdx i }) m

/-- The pool holds only buffers that have been allocated. -/
def Mem.WellFormed (m : Mem) : Prop := ∀ a ∈ m.pool, a < m.next

instance (m : Mem) : Decidable m.WellFormed := by
  unfold Mem.WellFormed
  infer_instance

end BufferPool

/-! # The queues of `src/go-UC-test/2025-12-02/test3/main.go`

Every method runs under the mutex of its queue, so a call is one atomic step.  A
call whose waiting loop finds its condition unmet waits on the condition variable:
it is represented by `none`, and completes only from a state in which the
condition holds. -/

namespace SyncCond

/-- The struct `BlockingQueue`: `items` and `maxSize`. -/
structure BlockingQueue (α : Type) where
  items : List α
  maxSize : Int

/-- `NewBlockingQueue`: no items, the given `maxSize`. -/
def NewBlockingQueue {α : Type} (maxSize : Int) : BlockingQueue α :=
  ⟨[], maxSize⟩

/-- `Put`: waits while `len(bq.items) >= bq.maxSize`, then appends the item. -/
def BlockingQueue.Put {α : Type} (bq : BlockingQueue α) (item : α) :
    Option (BlockingQueue α) :=
  if (bq.items.length : Int) ≥ bq.maxSize then none
  else some { bq with items := bq.items ++ [item] }

/-- `Take`: waits while `len(bq.items) == 0`, then removes and returns
`bq.items[0]`. -/
def BlockingQueue.Take {α : Type} (bq : BlockingQueue α) : Option (α × BlockingQueue α) :=
  match bq.items with
  | [] => none
  | item :: rest => some (item, { bq with items := rest })

/-- `Size`: `len(bq.items)`. -/
def BlockingQueue.Size {α : Type} (bq : BlockingQueue α) : Int :=
  bq.items.length

/-- A completed call on a blocking queue. -/
inductive QueueOp (α : Type) where
  | put (item : α)
  | take

/-- The queue after one call, `none` while the call waits. -/
def BlockingQueue.step {α : Type} (bq : BlockingQueue α) : QueueOp α → Option (BlockingQueue α)
  | .put item => bq.Put item
  | .take => (bq.Take).map Prod.snd

/-- The queue after the calls `ops` have completed in this order, `none` if one of
them cannot complete in its turn. -/
def BlockingQueue.run {α : Type} (bq : BlockingQueue α) : List (QueueOp α) →
    Option (BlockingQueue α)
  | [] => some bq
  | op :: ops =>
    match bq.step op with
    | none => none
    | some next => next.run ops

/-- The struct `TaskQueue`: `tasks` and `closed`. -/
structure TaskQueue (τ : Type) where
  tasks : List τ
  closed : Bool

/-- `NewTaskQueue`: no tasks, not closed. -/
def NewTaskQueue {τ : Type} : TaskQueue τ := ⟨[], false⟩

/-- `AddTask`: returns at once on a closed queue, otherwise appends the task. -/
def TaskQueue.AddTask {τ : Type} (tq : TaskQueue τ) (task : τ) : TaskQueue τ :=
  if tq.closed then tq else { tq with tasks := tq.tasks ++ [task] }

/-- `TakeTask`: waits while the queue is empty and not closed; then returns
`(nil, false)` if the queue is empty, and otherwise removes and returns
`tq.tasks[0]` with `true`. -/
def TaskQueue.TakeTask {τ : Type} (tq : TaskQueue τ) :
    Option ((Option τ × Bool) × TaskQueue τ) :=
  if tq.tasks.length = 0 ∧ tq.closed = false then none
  else
    match tq.tasks with
    | [] => some ((none, false), tq)
    | task :: rest => some ((some task, true), { tq with tasks := rest })

/-- `Close`: sets `closed`. -/
def TaskQueue.Close {τ : Type} (tq : TaskQueue τ) : TaskQueue τ :=
  { tq with closed := true }

end SyncCond

namespace DistLock

/-- The store `s` with the record under `key` replaced by `r` (`none`: no record),
everything else as it is. -/
def Store.withRecord (s : Store) (key : String) (r : Option Record) : Store :=
  { s with recs := fun k => if k = key then r else s.recs k }

/-! ## Store lemmas -/

theorem Store.get_eq_none_iff (s : Store) (key : String) :
    s.get key = none ↔ s.find key = none := by
  simp [Store.get]

theorem Store.get_eq_some_iff (s : Store) (key v : String) :
    s.get key = some v ↔ ∃ r, s.find key = some r ∧ r.value = v := by
  simp [Store.get]

theorem Store.find_put_same (s : Store) (key value : String) (d : Int) (h : 0 < d) :
    (s.put key value d).find key = some ⟨value, s.now + d⟩ := by
  simp [Store.find, Store.put, h]

theorem Store.find_put_other (s : Store) (key value k : String) (d : Int) (h : k ≠ key) :
    (s.put key value d).find k = s.find k := by
  simp [Store.find, Store.put, h]

theorem Store.find_erase_same (s : Store) (key : String) :
    (s.erase key).find key = none := by
  simp [Store.find, Store.erase]

theorem Store.find_erase_other (s : Store) (key k : String) (h : k ≠ key) :
    (s.erase key).find k = s.find k := by
  simp [Store.find, Store.erase, h]

theorem Store.find_advance_put_live (s : Store) (key value : String) (ttl d : Int)
    (h : d < ttl) :
    ((s.put key value ttl).advance d).find key = some ⟨value, s.now + ttl⟩ := by
  simp [Store.find, Store.put, Store.advance, h]

theorem Store.find_advance_put_expired (s : Store) (key value : String) (ttl d : Int)
    (h : ttl ≤ d) :
    ((s.put key value ttl).advance d).find key = none := by
  simp [Store.find, Store.put, Store.advance, h]

theorem Store.advance_advance (s : Store) (d e : Int) :
    (s.advance d).advance e = s.advance (d + e) := by
  simp [Store.advance, add_assoc]

theorem Store.find_advance_none (s : Store) (key : String) (d : Int)
    (h : s.find key = none) (hd : 0 ≤ d) : (s.advance d).find key = none := by
  unfold Store.find at h ⊢
  cases hr : s.recs key with
  | none => simp [Store.advance, hr]
  | some r =>
    rw [hr] at h
    have hexp : ¬ s.now < r.expireAt := by
      intro hlt; simp [hlt] at h
    have : ¬ s.now + d < r.expireAt := by omega
    simp [Store.advance, hr, this]

theorem Store.now_advance (s : Store) (d : Int) : (s.advance d).now = s.now + d := rfl

theorem Store.now_put (s : Store) (key value : String) (d : Int) :
    (s.put key value d).now = s.now := rfl

theorem Client.sleep_mk (s : Store) (f : Option Fault) (d : Int) :
    Client.sleep ⟨s, f⟩ d = ⟨s.advance d, f⟩ := rfl

/-! ## The store round trips -/

theorem Store.setIfAbsent_held (s : Store) (key value : String) (d : Int) (r : Record)
    (hk : s.find key = some r) : s.setIfAbsent key value d = (false, s) := by
  simp [Store.setIfAbsent, hk]

theorem Store.setIfAbsent_free (s : Store) (key value : String) (d : Int)
    (hk : s.find key = none) : s.setIfAbsent key value d = (true, s.put key value d) := by
  simp [Store.setIfAbsent, hk]

theorem unlockScript_match (s : Store) (key value : String)
    (hk : s.get key = some value) : unlockScript s key value = (.num 1, s.erase key) := by
  obtain ⟨r, hr, _⟩ := (Store.get_eq_some_iff _ _ _).1 hk
  simp [unlockScript, redisCallGet, redisCallDel, hk, hr]

theorem unlockScript_mismatch (s : Store) (key value : String)
    (hk : s.get key ≠ some value) : unlockScript s key value = (.num 0, s) := by
  cases hg : s.get key with
  | none => simp [unlockScript, redisCallGet, hg]
  | some v =>
    have hv : v ≠ value := by
      intro hv; exact hk (by rw [hg, hv])
    simp [unlockScript, redisCallGet, hg, hv]

theorem Client.SetNX_err_none_iff (rdb : Client) (key value : String) (d : Int) :
    (rdb.SetNX key value d).1.2 = none ↔ rdb.fault = none := by
  unfold Client.SetNX
  cases h : rdb.fault <;> simp

theorem Client.Eval_unlock_err_none_iff (rdb : Client) (key value : String) :
    (rdb.Eval unlockScript key value).1.2 = none ↔ rdb.fault = none := by
  unfold Client.Eval
  cases h : rdb.fault with
  | some e => simp
  | none =>
    simp only [unlockScript, redisCallDel]
    split <;> [split; skip] <;> simp [luaToGo]

/-! ## What the four Go functions compute -/

theorem acquireTestLock_eq (rdb : Client) (key value : String) (d : Int) :
    acquireTestLock rdb key value d = acquireLock rdb key value d := rfl

theorem releaseTestLock_eq (rdb : Client) (key value : String) :
    releaseTestLock rdb key value = releaseLock rdb key value := rfl

theorem acquireLock_fault (s : Store) (key value : String) (d : Int) (f : Fault) :
    acquireLock ⟨s, some f⟩ key value d =
      ((false, some f.err),
        ⟨if f.served then (s.setIfAbsent key value d).2 else s, some f⟩) := by
  cases hf : f.served <;> simp [acquireLock, Client.SetNX, hf]

theorem acquireLock_free (s : Store) (key value : String) (d : Int)
    (hk : s.find key = none) :
    acquireLock ⟨s, none⟩ key value d = ((true, none), ⟨s.put key value d, none⟩) := by
  simp [acquireLock, Client.SetNX, Store.setIfAbsent, hk]

theorem acquireLock_held (s : Store) (key value : String) (d : Int) (r : Record)
    (hk : s.find key = some r) :
    acquireLock ⟨s, none⟩ key value d = ((false, none), ⟨s, none⟩) := by
  simp [acquireLock, Client.SetNX, Store.setIfAbsent, hk]

theorem releaseLock_fault (s : Store) (key value : String) (f : Fault) :
    releaseLock ⟨s, some f⟩ key value =
      some ((false, some f.err),
        ⟨if f.served then (unlockScript s key value).2 else s, some f⟩) := by
  cases hf : f.served <;> simp [releaseLock, Client.Eval, hf]

theorem releaseLock_match (s : Store) (key value : String)
    (hk : s.get key = some value) :
    releaseLock ⟨s, none⟩ key value = some ((true, none), ⟨s.erase key, none⟩) := by
  obtain ⟨r, hr, _⟩ := (Store.get_eq_some_iff _ _ _).1 hk
  simp [releaseLock, Client.Eval, unlockScript, redisCallGet, redisCallDel, luaToGo, hk, hr]

theorem releaseLock_mismatch (s : Store) (key value : String)
    (hk : s.get key ≠ some value) :
    releaseLock ⟨s, none⟩ key value = some ((false, none), ⟨s, none⟩) := by
  cases hg : s.get key with
  | none => simp [releaseLock, Client.Eval, unlockScript, redisCallGet, luaToGo, hg]
  | some v =>
    have hv : v ≠ value := by
      intro hv; exact hk (by rw [hg, hv])
    simp [releaseLock, Client.Eval, unlockScript, redisCallGet, luaToGo, hg, hv]

theorem acquireLock_true_inv (rdb : Client) (key value : String) (d : Int)
    (h : (acquireLock rdb key value d).1 = (true, none)) :
    rdb.fault = none ∧ rdb.store.find key = none := by
  obtain ⟨s, f⟩ := rdb
  cases f with
  | some e => simp [acquireLock_fault] at h
  | none =>
    cases hk : s.find key with
    | none => exact ⟨rfl, rfl⟩
    | some r => simp [acquireLock_held s key value d r hk] at h

theorem acquireLock_held_state (rdb : Client) (key value : String) (d : Int)
    (r : Record) (hk : rdb.store.find key = some r) :
    (acquireLock rdb key value d).2 = rdb := by
  obtain ⟨s, f⟩ := rdb
  cases f with
  | some e => simp [acquireLock_fault, Store.setIfAbsent_held s key value d r hk]
  | none => simp [acquireLock_held s key value d r hk]

theorem releaseLock_true_inv (rdb rdb' : Client) (key value : String)
    (err : Option GoError) (h : releaseLock rdb key value = some ((true, err), rdb')) :
    rdb.fault = none ∧ rdb.store.get key = some value ∧ err = none ∧
      rdb' = ⟨rdb.store.erase key, none⟩ := by
  obtain ⟨s, f⟩ := rdb
  cases f with
  | some e => simp [releaseLock_fault] at h
  | none =>
    by_cases hk : s.get key = some value
    · rw [releaseLock_match s key value hk] at h
      simp only [Option.some.injEq, Prod.mk.injEq, true_and] at h
      exact ⟨rfl, hk, h.1.symm, h.2.symm⟩
    · simp [releaseLock_mismatch s key value hk] at h

/-! ## Acquire and Release as functions of the store state -/

/-- C1: for every store state, key, token and ttl > 0 for which the store call does
not fail, `acquireLock` and `acquireTestLock` return `true` if and only if the
store held no live record under the key when the call was served, and `false` if
and only if such a record already existed. -/
theorem acquire_true_iff_key_free (rdb : Client) (key token : String) (ttl : Int)
    (_httl : 0 < ttl) (hok : (rdb.SetNX key token ttl).1.2 = none) :
    ((acquireLock rdb key token ttl).1 = (true, none) ↔ rdb.store.find key = none) ∧
    ((acquireLock rdb key token ttl).1 = (false, none) ↔
      ∃ r, rdb.store.find key = some r) ∧
    ((acquireTestLock rdb key token ttl).1 = (true, none) ↔ rdb.store.find key = none) ∧
    ((acquireTestLock rdb key token ttl).1 = (false, none) ↔
      ∃ r, rdb.store.find key = some r) := by
  have hf : rdb.fault = none := (Client.SetNX_err_none_iff rdb key token ttl).1 hok
  obtain ⟨s, f⟩ := rdb
  subst hf
  simp only [acquireTestLock_eq, and_self_left]
  cases hk : s.find key with
  | none => simp [acquireLock_free s key token ttl hk]
  | some r => simp [acquireLock_held s key token ttl r hk]

/-- Witness of C1: the first acquisition of `"mylock"` on an empty store, as in
`distributedLockExample`. -/
theorem acquire_true_iff_key_free_witness :
    (0 : Int) < 30000000000 ∧
    (freshClient.SetNX "mylock" "lock_value_123" 30000000000).1.2 = none ∧
    (acquireLock freshClient "mylock" "lock_value_123" 30000000000).1 = (true, none) :=
  ⟨by decide, rfl,
    (acquire_true_iff_key_free freshClient "mylock" "lock_value_123" 30000000000
      (by decide) rfl).1.2 rfl⟩

/-- C2: for every store state, key and token for which the store call does not
fail, `releaseLock` and `releaseTestLock` return `true` if and only if a live
record exists under the key and its stored value equals the presented token, and
`false` if and only if that is not so; in particular they return `false` when the
key is absent, whatever the token (the empty string included). -/
theorem release_true_iff_token_matches (rdb : Client) (key token : String)
    (hok : (rdb.Eval unlockScript key token).1.2 = none) :
    ((releaseLock rdb key token).map Prod.fst = some (true, none) ↔
      ∃ r, rdb.store.find key = some r ∧ r.value = token) ∧
    ((releaseLock rdb key token).map Prod.fst = some (false, none) ↔
      ¬ ∃ r, rdb.store.find key = some r ∧ r.value = token) ∧
    (rdb.store.find key = none →
      (releaseLock rdb key token).map Prod.fst = some (false, none)) ∧
    releaseTestLock rdb key token = releaseLock rdb key token := by
  have hf : rdb.fault = none := (Client.Eval_unlock_err_none_iff rdb key token).1 hok
  obtain ⟨s, f⟩ := rdb
  subst hf
  refine ⟨?_, ?_, ?_, rfl⟩
  · rw [← Store.get_eq_some_iff]
    by_cases hk : s.get key = some token
    · simp [releaseLock_match s key token hk, hk]
    · simp [releaseLock_mismatch s key token hk, hk]
  · rw [← Store.get_eq_some_iff]
    by_cases hk : s.get key = some token
    · simp [releaseLock_match s key token hk, hk]
    · simp [releaseLock_mismatch s key token hk, hk]
  · intro hnone
    have hk : s.get key ≠ some token := by
      simp [(Store.get_eq_none_iff _ _).2 hnone]
    simp [releaseLock_mismatch s key token hk]

/-- Witness of C2: the empty-string token presented against an absent key is
rejected. -/
theorem release_true_iff_token_matches_witness :
    (freshClient.Eval unlockScript "mylock" "").1.2 = none ∧
    (releaseLock freshClient "mylock" "").map Prod.fst = some (false, none) :=
  ⟨rfl, (release_true_iff_token_matches freshClient "mylock" "" rfl).2.2.1 rfl⟩

/-! ## Safety of release -/

/-- C3: a caller can never delete another holder's lock.  If A acquires `key` with
`tA`, A's ttl elapses (`ttlA ≤ d1`), and B then acquires `key` with `tB ≠ tA`
(which succeeds), a later `Release(key, tA)` returns `false` and leaves the store
as it was, so that B's record (value `tB`, remaining ttl `ttlB - d2`) is still
there; and `Release(key, tA)` also returns `false` when nobody re-acquired and the
key is simply absent after expiry. -/
theorem stale_release_rejected (rdb : Client) (key tA tB : String)
    (ttlA ttlB d1 d2 : Int) (hne : tA ≠ tB) (_hA : 0 < ttlA) (_hB : 0 < ttlB)
    (hacq : (acquireTestLock rdb key tA ttlA).1 = (true, none))
    (hexp : ttlA ≤ d1) (_hd2 : 0 ≤ d2) :
    (acquireTestLock ((acquireTestLock rdb key tA ttlA).2.sleep d1) key tB ttlB).1 =
        (true, none) ∧
    releaseTestLock
        ((acquireTestLock ((acquireTestLock rdb key tA ttlA).2.sleep d1) key tB ttlB).2.sleep d2)
        key tA =
      some ((false, none),
        (acquireTestLock ((acquireTestLock rdb key tA ttlA).2.sleep d1) key tB ttlB).2.sleep d2) ∧
    (d2 < ttlB →
      ((acquireTestLock ((acquireTestLock rdb key tA ttlA).2.sleep d1) key tB ttlB).2.sleep
          d2).store.get key = some tB ∧
      ((acquireTestLock ((acquireTestLock rdb key tA ttlA).2.sleep d1) key tB ttlB).2.sleep
          d2).store.ttl key = some (ttlB - d2)) ∧
    releaseTestLock ((acquireTestLock rdb key tA ttlA).2.sleep d1) key tA =
      some ((false, none), (acquireTestLock rdb key tA ttlA).2.sleep d1) := by
  simp only [acquireTestLock_eq, releaseTestLock_eq] at hacq ⊢
  obtain ⟨hf, hk⟩ := acquireLock_true_inv rdb key tA ttlA hacq
  obtain ⟨s, f⟩ := rdb
  simp only at hf hk
  subst hf
  have hgone : ((s.put key tA ttlA).advance d1).find key = none :=
    Store.find_advance_put_expired _ _ _ _ _ hexp
  simp only [acquireLock_free s key tA ttlA hk, Client.sleep_mk,
    acquireLock_free _ key tB ttlB hgone]
  refine ⟨trivial, ?_, ?_, ?_⟩
  · apply releaseLock_mismatch
    by_cases hlive : d2 < ttlB
    · simp [Store.get, Store.find_advance_put_live _ _ _ _ _ hlive, Ne.symm hne]
    · simp [Store.get, Store.find_advance_put_expired _ _ _ _ _ (not_lt.1 hlive)]
  · intro hlive
    simp only [Store.get, Store.ttl, Store.find_advance_put_live _ _ _ _ _ hlive,
      Option.map_some', Store.now_advance, Store.now_put, true_and, Option.some.injEq]
    show (s.now + d1 + ttlB - (s.now + d1 + d2) : Int) = ttlB - d2
    omega
  · apply releaseLock_mismatch
    simp [Store.get, hgone]

/-- Witness of C3: A takes `"L"` for 2 s, 3 s pass, B takes it for 5 s, and one
second later A's release is rejected while B's record has 4 s left. -/
theorem stale_release_rejected_witness :
    (releaseTestLock
        ((acquireTestLock ((acquireTestLock freshClient "L" "A1" 2).2.sleep 3) "L" "B1" 5).2.sleep
          1) "L" "A1").map Prod.fst = some (false, none) ∧
    ((acquireTestLock ((acquireTestLock freshClient "L" "A1" 2).2.sleep 3) "L" "B1" 5).2.sleep
        1).store.ttl "L" = some 4 := by
  have h := stale_release_rejected freshClient "L" "A1" "B1" 2 5 3 1 (by decide) (by decide)
    (by decide) rfl (by decide) (by decide)
  exact ⟨by rw [h.2.1]; rfl, (h.2.2.1 (by decide)).2⟩

/-- C4: after a successful `Acquire(key, correct, ttl)` and before the ttl elapses,
`Release(key, wrong)` with `wrong ≠ correct` returns `false` and leaves the record
`key→correct` intact, and a subsequent `Release(key, correct)` returns `true`. -/
theorem wrong_token_release_rejected (rdb : Client) (key correct wrong : String)
    (ttl d1 d2 : Int) (hne : correct ≠ wrong) (_httl : 0 < ttl)
    (hacq : (acquireTestLock rdb key correct ttl).1 = (true, none))
    (_hd1 : 0 ≤ d1) (hd2 : 0 ≤ d2) (hlive : d1 + d2 < ttl) :
    releaseTestLock ((acquireTestLock rdb key correct ttl).2.sleep d1) key wrong =
      some ((false, none), (acquireTestLock rdb key correct ttl).2.sleep d1) ∧
    ((acquireTestLock rdb key correct ttl).2.sleep d1).store.find key =
      some ⟨correct, rdb.store.now + ttl⟩ ∧
    (releaseTestLock (((acquireTestLock rdb key correct ttl).2.sleep d1).sleep d2) key
      correct).map Prod.fst = some (true, none) := by
  simp only [acquireTestLock_eq, releaseTestLock_eq] at hacq ⊢
  obtain ⟨hf, hk⟩ := acquireLock_true_inv rdb key correct ttl hacq
  obtain ⟨s, f⟩ := rdb
  simp only at hf hk
  subst hf
  have h1 : ((s.put key correct ttl).advance d1).find key = some ⟨correct, s.now + ttl⟩ :=
    Store.find_advance_put_live _ _ _ _ _ (by omega)
  have h2 : (((s.put key correct ttl).advance d1).advance d2).find key =
      some ⟨correct, s.now + ttl⟩ := by
    rw [Store.advance_advance]
    exact Store.find_advance_put_live _ _ _ _ _ hlive
  simp only [acquireLock_free s key correct ttl hk, Client.sleep_mk]
  refine ⟨?_, h1, ?_⟩
  · apply releaseLock_mismatch
    simp [Store.get, h1, hne]
  · rw [releaseLock_match _ key correct (by simp [Store.get, h2])]
    rfl

/-- Witness of C4: the stale-value rejection scenario of the specification, key
`"L"`, holder token `"A1"`, intruder token `"B1"`. -/
theorem wrong_token_release_rejected_witness :
    (releaseTestLock ((acquireTestLock freshClient "L" "A1" 10).2.sleep 1) "L" "B1").map
        Prod.fst = some (false, none) ∧
    (releaseTestLock (((acquireTestLock freshClient "L" "A1" 10).2.sleep 1).sleep 1) "L"
        "A1").map Prod.fst = some (true, none) := by
  have h := wrong_token_release_rejected freshClient "L" "A1" "B1" 10 1 1 (by decide)
    (by decide) rfl (by decide) (by decide) (by decide)
  exact ⟨by rw [h.1]; rfl, h.2.2⟩

/-! ## Mutual exclusion -/

theorem totalWait_nonneg (calls : List AcquireCall) (h : ∀ c ∈ calls, 0 ≤ c.wait) :
    0 ≤ totalWait calls := by
  induction calls with
  | nil => simp [totalWait]
  | cons c rest ih =>
    have h1 : 0 ≤ c.wait := h c (List.mem_cons_self _ _)
    have h2 : 0 ≤ totalWait rest := ih fun c hc => h c (List.mem_cons_of_mem _ hc)
    simp only [totalWait, List.map_cons, List.sum_cons] at h2 ⊢
    exact Int.add_nonneg h1 h2

theorem serveAcquires_held (key : String) (calls : List AcquireCall) :
    ∀ (s : Store) (r : Record), s.recs key = some r → (∀ c ∈ calls, 0 ≤ c.wait) →
      s.now + totalWait calls < r.expireAt →
      (serveAcquires ⟨s, none⟩ key calls).1 = List.replicate calls.length (false, none) ∧
      (serveAcquires ⟨s, none⟩ key calls).2 = ⟨s.advance (totalWait calls), none⟩ := by
  induction calls with
  | nil =>
    intro s r _ _ _
    simp [serveAcquires, totalWait, Store.advance]
  | cons c rest ih =>
    intro s r hr hw hlt
    have h1 : 0 ≤ c.wait := hw c (List.mem_cons_self _ _)
    have h2 : 0 ≤ totalWait rest :=
      totalWait_nonneg rest fun c hc => hw c (List.mem_cons_of_mem _ hc)
    have htot : totalWait (c :: rest) = c.wait + totalWait rest := by
      simp [totalWait]
    rw [htot] at hlt
    have hfind : (s.advance c.wait).find key = some r := by
      have : s.now + c.wait < r.expireAt := by omega
      simp [Store.find, Store.advance, hr, this]
    have hstep := acquireLock_held (s.advance c.wait) key c.token c.ttl r hfind
    have hrec : (s.advance c.wait).recs key = some r := hr
    have hlt2 : (s.advance c.wait).now + totalWait rest < r.expireAt := by
      simp only [Store.now_advance]; omega
    obtain ⟨ih1, ih2⟩ := ih (s.advance c.wait) r hrec
      (fun c hc => hw c (List.mem_cons_of_mem _ hc)) hlt2
    simp only [serveAcquires, Client.sleep_mk, acquireTestLock_eq, hstep, ih1, ih2, htot,
      List.length_cons, List.replicate_succ, Store.advance_advance, and_self]

/-- C5: mutual exclusion.  For every N ≥ 1 and every order `first :: rest` in which
the store serves N `Acquire` calls on the same initially absent key, with positive
ttls, no `Release`, and no expiry in between (the time passing while the other
calls are served is shorter than the winner's ttl), exactly one call, the first
served, returns `true` and the other N-1 return `false`, whether or not the
tokens are distinct. -/
theorem acquire_mutual_exclusion (rdb : Client) (key : String) (first : AcquireCall)
    (rest : List AcquireCall) (hok : rdb.fault = none) (habsent : rdb.store.find key = none)
    (_httl : ∀ c ∈ first :: rest, 0 < c.ttl) (hwait : ∀ c ∈ first :: rest, 0 ≤ c.wait)
    (hlive : totalWait rest < first.ttl) :
    (serveAcquires rdb key (first :: rest)).1 =
      (true, none) :: List.replicate rest.length (false, none) ∧
    ((serveAcquires rdb key (first :: rest)).1.filter fun r => r.1).length = 1 := by
  obtain ⟨s, f⟩ := rdb
  simp only at hok habsent
  subst hok
  have hfree : (s.advance first.wait).find key = none :=
    Store.find_advance_none s key first.wait habsent (hwait first (List.mem_cons_self _ _))
  have hstep := acquireLock_free (s.advance first.wait) key first.token first.ttl hfree
  have hrec : ((s.advance first.wait).put key first.token first.ttl).recs key =
      some ⟨first.token, (s.advance first.wait).now + first.ttl⟩ := by
    simp [Store.put]
  have hlt : ((s.advance first.wait).put key first.token first.ttl).now + totalWait rest <
      (⟨first.token, (s.advance first.wait).now + first.ttl⟩ : Record).expireAt := by
    simp only [Store.now_put]; omega
  obtain ⟨h1, _⟩ := serveAcquires_held key rest _ _ hrec
    (fun c hc => hwait c (List.mem_cons_of_mem _ hc)) hlt
  have hres : (serveAcquires ⟨s, none⟩ key (first :: rest)).1 =
      (true, none) :: List.replicate rest.length (false, none) := by
    simp only [serveAcquires, Client.sleep_mk, acquireTestLock_eq, hstep, h1]
  refine ⟨hres, ?_⟩
  rw [hres]
  simp [List.filter_cons, List.filter_replicate]

/-- Witness of C5: three callers race for the fresh key `"test_race_lock"`; the
first one served wins, the other two lose. -/
theorem acquire_mutual_exclusion_witness :
    (serveAcquires freshClient "test_race_lock"
      [⟨0, "race_2_7", 3⟩, ⟨1, "race_0_5", 3⟩, ⟨1, "race_1_6", 3⟩]).1 =
      [(true, none), (false, none), (false, none)] :=
  (acquire_mutual_exclusion freshClient "test_race_lock" ⟨0, "race_2_7", 3⟩
    [⟨1, "race_0_5", 3⟩, ⟨1, "race_1_6", 3⟩] rfl rfl (by decide) (by decide) (by decide)).1

/-! ## Idempotent release, expiry, and the per-key transitions -/

/-- C6: idempotent release.  If `Release(key, token)` returns `true`, an immediately
following `Release(key, token)` with no operation in between returns `false`; and
of any two consecutive `Release` calls with the same token at most one returns
`true`. -/
theorem release_idempotent (rdb : Client) (key token : String) :
    (∀ rdb1, releaseTestLock rdb key token = some ((true, none), rdb1) →
      releaseTestLock rdb1 key token = some ((false, none), rdb1)) ∧
    (∀ r1 rdb1 r2 rdb2, releaseTestLock rdb key token = some (r1, rdb1) →
      releaseTestLock rdb1 key token = some (r2, rdb2) → ¬ (r1.1 = true ∧ r2.1 = true)) := by
  simp only [releaseTestLock_eq]
  have key1 : ∀ rdb1 err, releaseLock rdb key token = some ((true, err), rdb1) →
      releaseLock rdb1 key token = some ((false, none), rdb1) := by
    intro rdb1 err h
    obtain ⟨_, _, _, h1⟩ := releaseLock_true_inv rdb rdb1 key token err h
    subst h1
    apply releaseLock_mismatch
    simp [Store.get, Store.find_erase_same]
  refine ⟨fun rdb1 h => key1 rdb1 none h, ?_⟩
  rintro ⟨b1, e1⟩ rdb1 ⟨b2, e2⟩ rdb2 h1 h2 ⟨hb1, hb2⟩
  simp only at hb1 hb2
  subst hb1 hb2
  have h := key1 rdb1 e1 h1
  rw [h] at h2
  simp at h2

/-- Witness of C6: on the key `"L"` held with `"A1"`, the first release of `"A1"`
succeeds and the second one is rejected. -/
theorem release_idempotent_witness :
    releaseTestLock (acquireTestLock freshClient "L" "A1" 5).2 "L" "A1" =
      some ((true, none), ⟨(freshClient.store.put "L" "A1" 5).erase "L", none⟩) ∧
    releaseTestLock ⟨(freshClient.store.put "L" "A1" 5).erase "L", none⟩ "L" "A1" =
      some ((false, none), ⟨(freshClient.store.put "L" "A1" 5).erase "L", none⟩) :=
  have h : releaseTestLock (acquireTestLock freshClient "L" "A1" 5).2 "L" "A1" =
      some ((true, none), ⟨(freshClient.store.put "L" "A1" 5).erase "L", none⟩) := by
    simp [releaseTestLock, acquireTestLock, freshClient, emptyStore, Client.SetNX, Client.Eval,
      Store.setIfAbsent, unlockScript, redisCallGet, redisCallDel, luaToGo, Store.get,
      Store.find, Store.put]
  ⟨h, (release_idempotent (acquireTestLock freshClient "L" "A1" 5).2 "L" "A1").1 _ h⟩

/-- C7: liveness via expiry.  If `Acquire(key, t1, ttl)` with `ttl > 0` succeeds at
time `T` and no `Release` is performed, an `Acquire(key, t2, ttl')` served at any
time later than `T + ttl`, nobody having acquired the key in between, returns
`true`. -/
theorem expired_lock_reacquirable (rdb : Client) (key t1 t2 : String) (ttl ttl' d : Int)
    (_httl : 0 < ttl) (hacq : (acquireTestLock rdb key t1 ttl).1 = (true, none))
    (hlater : ttl < d) :
    (acquireTestLock ((acquireTestLock rdb key t1 ttl).2.sleep d) key t2 ttl').1 =
      (true, none) := by
  simp only [acquireTestLock_eq] at hacq ⊢
  obtain ⟨hf, hk⟩ := acquireLock_true_inv rdb key t1 ttl hacq
  obtain ⟨s, f⟩ := rdb
  simp only at hf hk
  subst hf
  have hgone : ((s.put key t1 ttl).advance d).find key = none :=
    Store.find_advance_put_expired _ _ _ _ _ (le_of_lt hlater)
  simp only [acquireLock_free s key t1 ttl hk, Client.sleep_mk,
    acquireLock_free _ key t2 ttl' hgone]

/-- Witness of C7: the timeout test: a lock taken for 2 s is free again 3 s later. -/
theorem expired_lock_reacquirable_witness :
    (acquireTestLock ((acquireTestLock freshClient "test_timeout_lock" "test_1" 2).2.sleep 3)
      "test_timeout_lock" "test_2" 2).1 = (true, none) :=
  expired_lock_reacquirable freshClient "test_timeout_lock" "test_1" "test_2" 2 2 3
    (by decide) rfl (by decide)

/-- C8: when `Acquire(key, token, ttl)` with `ttl > 0` returns `true`, the store
afterwards holds the record `key→token`: a `GET` of the key returns the presented
token, the remaining time to live is the presented `ttl`, and, counted from the
moment of creation, the record is there after a time `d ≥ 0` exactly when
`d < ttl`. -/
theorem acquire_creates_record (rdb : Client) (key token : String) (ttl : Int)
    (httl : 0 < ttl) (hacq : (acquireTestLock rdb key token ttl).1 = (true, none)) :
    (acquireTestLock rdb key token ttl).2.store.find key =
      some ⟨token, rdb.store.now + ttl⟩ ∧
    (acquireTestLock rdb key token ttl).2.Get key = (token, none) ∧
    (acquireTestLock rdb key token ttl).2.store.ttl key = some ttl ∧
    (∀ d : Int, 0 ≤ d →
      (((acquireTestLock rdb key token ttl).2.sleep d).store.get key = some token ↔
        d < ttl)) := by
  simp only [acquireTestLock_eq] at hacq ⊢
  obtain ⟨hf, hk⟩ := acquireLock_true_inv rdb key token ttl hacq
  obtain ⟨s, f⟩ := rdb
  simp only at hf hk
  subst hf
  have hfind := Store.find_put_same s key token ttl httl
  simp only [acquireLock_free s key token ttl hk, Client.sleep_mk]
  refine ⟨hfind, ?_, ?_, ?_⟩
  · simp [Client.Get, Store.get, hfind]
  · simp [Store.ttl, hfind, Store.now_put]
  · intro d _
    by_cases hd : d < ttl
    · simp [Store.get, Store.find_advance_put_live s key token ttl d hd, hd]
    · simp [Store.get, Store.find_advance_put_expired s key token ttl d (not_lt.1 hd), hd]

/-- Witness of C8: after the acquisition of `"test_renewal_lock"` for 3 s, `GET`
returns the holder token. -/
theorem acquire_creates_record_witness :
    (acquireTestLock freshClient "test_renewal_lock" "test_1" 3).2.Get "test_renewal_lock" =
      ("test_1", none) :=
  (acquire_creates_record freshClient "test_renewal_lock" "test_1" 3 (by decide) rfl).2.1

/-- C9: a failed `Acquire` does not transition the lock.  For every key held with
a token `t` and every presented token `t'` (equal to `t` or not) and `ttl'`, an
`Acquire` that returns `false` leaves the client and the store as they were: the
stored value is still `t` and the deadline and remaining time to live of the
record are unchanged (neither refreshed nor replaced by `ttl'`). -/
theorem failed_acquire_no_transition (rdb : Client) (key t' : String) (ttl' : Int)
    (held : Record) (hheld : rdb.store.find key = some held)
    (hfail : (acquireTestLock rdb key t' ttl').1.1 = false) :
    (acquireTestLock rdb key t' ttl').2 = rdb ∧
    (acquireTestLock rdb key t' ttl').2.store.find key = some held ∧
    (acquireTestLock rdb key t' ttl').2.store.get key = some held.value ∧
    (acquireTestLock rdb key t' ttl').2.store.ttl key = rdb.store.ttl key := by
  have _ := hfail
  simp only [acquireTestLock_eq]
  rw [acquireLock_held_state rdb key t' ttl' held hheld]
  exact ⟨rfl, hheld, by simp [Store.get, hheld], rfl⟩

/-- Witness of C9: `"L"` is held with `"A1"` for 5 s; two seconds later an
`Acquire` with `"B1"` and ttl 30 fails and the record still has 3 s to live. -/
theorem failed_acquire_no_transition_witness :
    (acquireTestLock ((acquireTestLock freshClient "L" "A1" 5).2.sleep 2) "L" "B1" 30).2.store.ttl
      "L" = some 3 :=
  ((failed_acquire_no_transition ((acquireTestLock freshClient "L" "A1" 5).2.sleep 2) "L" "B1"
    30 ⟨"A1", 5⟩ (by decide) rfl).2.2.2).trans (by decide)

/-- C10 as amended: `Release` changes the store exactly when it returns `true`,
unless the store call fails.  For every store state, key and token the call
returns (it never panics) with one of three outcomes.  Through a working
connection either it returns `true` with no error, the store has changed and the
key is absent afterwards, or it returns `false` with no error and the client and
store after the call are identical to those before it.  When the store call
fails it returns `false` with the error of the round trip, and the store is
identical to the one before unless the store had served the call and the record
carried the presented token, in which case that record has been deleted. -/
theorem release_transitions (rdb : Client) (key token : String) :
    (∃ rdb', releaseTestLock rdb key token = some ((true, none), rdb') ∧
      rdb.fault = none ∧ rdb'.store.find key = none ∧ rdb'.store ≠ rdb.store) ∨
    (releaseTestLock rdb key token = some ((false, none), rdb) ∧ rdb.fault = none) ∨
    (∃ f, rdb.fault = some f ∧
      releaseTestLock rdb key token =
        some ((false, some f.err),
          ⟨if f.served = true ∧ rdb.store.get key = some token then rdb.store.erase key
            else rdb.store, some f⟩)) := by
  simp only [releaseTestLock_eq]
  obtain ⟨s, f⟩ := rdb
  cases f with
  | some f =>
    refine Or.inr (Or.inr ⟨f, rfl, ?_⟩)
    rw [releaseLock_fault]
    by_cases hk : s.get key = some token
    · cases hf : f.served <;> simp [hk, unlockScript_match s key token hk]
    · cases hf : f.served <;> simp [hk, unlockScript_mismatch s key token hk]
  | none =>
    by_cases hk : s.get key = some token
    · refine Or.inl ⟨_, releaseLock_match s key token hk, rfl, Store.find_erase_same s key, ?_⟩
      intro heq
      have h1 : (s.erase key).find key = s.find key := by simp only at heq; rw [heq]
      rw [Store.find_erase_same] at h1
      simp [Store.get, ← h1] at hk
    · exact Or.inr (Or.inl ⟨releaseLock_mismatch s key token hk, rfl⟩)

/-- Counterexample to C10 as stated: `"L"` is held with `"A1"`, and the store
serves a `Release` with `"A1"` whose reply is lost.  `Release` returns `false`
with the error of the round trip, yet the record that was under `"L"` before
the call is gone after it. -/
theorem release_false_store_changed :
    (acquireTestLock freshClient "L" "A1" 5).2.store.get "L" = some "A1" ∧
    (releaseTestLock
        ⟨(acquireTestLock freshClient "L" "A1" 5).2.store, some ⟨⟨"i/o timeout"⟩, true⟩⟩
        "L" "A1").map (fun out => (out.1, out.2.store.get "L")) =
      some ((false, some ⟨"i/o timeout"⟩), none) := by
  decide

/-! ## Error propagation and the two copies of the protocol -/

/-- C11: store failures propagate unchanged.  If the store call (`SetNX` for
Acquire, `Eval` for Release) fails with error `e`, the operation returns `false`
together with exactly `e`; if the store call succeeds, the operation returns a nil
error together with the boolean outcome (and Release does not panic); a held lock
read through a working connection is reported as `(false, nil)`. -/
theorem store_errors_propagate (rdb : Client) (key value : String) (d : Int) :
    (∀ e, (rdb.SetNX key value d).1.2 = some e →
      (acquireLock rdb key value d).1 = (false, some e) ∧
      (acquireTestLock rdb key value d).1 = (false, some e)) ∧
    ((rdb.SetNX key value d).1.2 = none →
      (acquireLock rdb key value d).1 = ((rdb.SetNX key value d).1.1, none) ∧
      (acquireTestLock rdb key value d).1 = ((rdb.SetNX key value d).1.1, none)) ∧
    (∀ e, (rdb.Eval unlockScript key value).1.2 = some e →
      (releaseLock rdb key value).map Prod.fst = some (false, some e) ∧
      (releaseTestLock rdb key value).map Prod.fst = some (false, some e)) ∧
    ((rdb.Eval unlockScript key value).1.2 = none →
      ∃ b, (releaseLock rdb key value).map Prod.fst = some (b, none) ∧
        (releaseTestLock rdb key value).map Prod.fst = some (b, none)) ∧
    ((rdb.SetNX key value d).1.2 = none → (∃ r, rdb.store.find key = some r) →
      (acquireLock rdb key value d).1 = (false, none) ∧
      (acquireTestLock rdb key value d).1 = (false, none)) := by
  simp only [acquireTestLock_eq, releaseTestLock_eq, and_self]
  refine ⟨?_, ?_, ?_, ?_, ?_⟩
  · intro e he
    unfold acquireLock
    rcases hres : rdb.SetNX key value d with ⟨⟨b, err⟩, c⟩
    rw [hres] at he
    simp only at he
    subst he
    rfl
  · intro hnone
    unfold acquireLock
    rcases hres : rdb.SetNX key value d with ⟨⟨b, err⟩, c⟩
    rw [hres] at hnone
    simp only at hnone
    subst hnone
    rfl
  · intro e he
    unfold releaseLock
    rcases hres : rdb.Eval unlockScript key value with ⟨⟨v, err⟩, c⟩
    rw [hres] at he
    simp only at he
    subst he
    cases v <;> rfl
  · intro hnone
    have hf := (Client.Eval_unlock_err_none_iff rdb key value).1 hnone
    obtain ⟨s, f⟩ := rdb
    simp only at hf
    subst hf
    by_cases hk : s.get key = some value
    · exact ⟨true, by rw [releaseLock_match s key value hk]; rfl⟩
    · exact ⟨false, by rw [releaseLock_mismatch s key value hk]; rfl⟩
  · rintro hnone ⟨r, hr⟩
    have hf := (Client.SetNX_err_none_iff rdb key value d).1 hnone
    obtain ⟨s, f⟩ := rdb
    simp only at hf hr
    subst hf
    rw [acquireLock_held s key value d r hr]

/-- Witness of C11: against a store that cannot be reached, Acquire and Release
hand back the very error of the round trip. -/
theorem store_errors_propagate_witness :
    (acquireLock ⟨emptyStore 0, some ⟨⟨"dial tcp: connection refused"⟩, false⟩⟩ "mylock"
      "lock_value_123" 30).1 = (false, some ⟨"dial tcp: connection refused"⟩) ∧
    (releaseLock ⟨emptyStore 0, some ⟨⟨"dial tcp: connection refused"⟩, false⟩⟩ "mylock"
      "lock_value_123").map Prod.fst = some (false, some ⟨"dial tcp: connection refused"⟩) :=
  ⟨((store_errors_propagate ⟨emptyStore 0, some ⟨⟨"dial tcp: connection refused"⟩, false⟩⟩ "mylock"
      "lock_value_123" 30).1 _ rfl).1,
   ((store_errors_propagate ⟨emptyStore 0, some ⟨⟨"dial tcp: connection refused"⟩, false⟩⟩ "mylock"
      "lock_value_123" 30).2.2.1 _ rfl).1⟩

/-- C16: the two copies of the protocol agree and carry no in-process state.  For
every client state and arguments `acquireTestLock` equals `acquireLock` and
`releaseTestLock` equals `releaseLock`, in result and in the state they leave; and
through a working connection the result and the store left behind are computed
from the store state and the arguments alone, so that any two handles on the same
store state get the same answer. -/
theorem lock_copies_agree (rdb : Client) (key value : String) (d : Int) :
    acquireTestLock rdb key value d = acquireLock rdb key value d ∧
    releaseTestLock rdb key value = releaseLock rdb key value ∧
    (rdb.fault = none →
      acquireLock rdb key value d =
        (((rdb.store.setIfAbsent key value d).1, none),
          ⟨(rdb.store.setIfAbsent key value d).2, none⟩) ∧
      releaseLock rdb key value =
        some ((decide (rdb.store.get key = some value), none),
          ⟨if rdb.store.get key = some value then rdb.store.erase key else rdb.store,
            none⟩)) ∧
    (∀ other : Client, other.store = rdb.store → other.fault = rdb.fault →
      acquireLock other key value d = acquireLock rdb key value d ∧
      releaseLock other key value = releaseLock rdb key value) := by
  refine ⟨rfl, rfl, ?_, ?_⟩
  · intro hf
    obtain ⟨s, f⟩ := rdb
    simp only at hf
    subst hf
    constructor
    · cases hk : s.find key with
      | none => simp [acquireLock_free s key value d hk, Store.setIfAbsent, hk]
      | some r => simp [acquireLock_held s key value d r hk, Store.setIfAbsent, hk]
    · by_cases hk : s.get key = some value
      · simp [releaseLock_match s key value hk, hk]
      · simp [releaseLock_mismatch s key value hk, hk]
  · intro other hs hf
    obtain ⟨s, f⟩ := rdb
    obtain ⟨s2, f2⟩ := other
    simp only at hs hf
    subst hs hf
    exact ⟨rfl, rfl⟩

/-- Witness of C16: on the empty store both copies create the record of `"mylock"`
and report success. -/
theorem lock_copies_agree_witness :
    acquireTestLock freshClient "mylock" "lock_value_123" 30 =
      ((true, none), ⟨(emptyStore 0).put "mylock" "lock_value_123" 30, none⟩) :=
  ((lock_copies_agree freshClient "mylock" "lock_value_123" 30).1).trans
    (((lock_copies_agree freshClient "mylock" "lock_value_123" 30).2.2.1 rfl).1.trans rfl)

/-! ## One round trip per call -/

theorem Traced.acquireTestLock_copy (w : Wire) (key value : String) (d : Int) :
    Traced.acquireTestLock w key value d = Traced.acquireLock w key value d := rfl

theorem Traced.releaseTestLock_copy (w : Wire) (key value : String) :
    Traced.releaseTestLock w key value = Traced.releaseLock w key value := rfl

theorem Traced.acquireLock_eq (w : Wire) (key value : String) (d : Int) :
    Traced.acquireLock w key value d =
      ((DistLock.acquireLock w.rdb key value d).1,
        ⟨(DistLock.acquireLock w.rdb key value d).2, w.sent ++ [.setnx key value d]⟩) := by
  unfold Traced.acquireLock DistLock.acquireLock Wire.SetNX
  rcases hres : w.rdb.SetNX key value d with ⟨⟨b, err⟩, c⟩
  cases err <;> rfl

theorem Traced.releaseLock_eq (w : Wire) (key value : String) :
    Traced.releaseLock w key value =
      (DistLock.releaseLock w.rdb key value).map fun x =>
        (x.1, ⟨x.2, w.sent ++ [.eval unlockScript key value]⟩) := by
  unfold Traced.releaseLock DistLock.releaseLock Wire.Eval
  rcases hres : w.rdb.Eval unlockScript key value with ⟨⟨v, err⟩, c⟩
  cases err <;> cases v <;> rfl

theorem releaseLock_isSome (rdb : Client) (key value : String) :
    ∃ b err rdb', releaseLock rdb key value = some ((b, err), rdb') := by
  obtain ⟨s, f⟩ := rdb
  cases f with
  | some e => exact ⟨_, _, _, releaseLock_fault s key value e⟩
  | none =>
    by_cases hk : s.get key = some value
    · exact ⟨_, _, _, releaseLock_match s key value hk⟩
    · exact ⟨_, _, _, releaseLock_mismatch s key value hk⟩

/-- C12: each call is one store round trip.  For every state of the connection and
all arguments, `acquireLock` / `acquireTestLock` send exactly one command, the
conditional create `SetNX key value duration`, and `releaseLock` /
`releaseTestLock` return and send exactly one command, the `Eval` of the unlock
script on the key and token (no separate `GET` or `DEL`); this holds whether the
store call succeeds, reports "held", or fails, so nothing is retried.  Result and
store are those of the functions without the record. -/
theorem one_round_trip_per_call (w : Wire) (key value : String) (d : Int) :
    (Traced.acquireLock w key value d).2.sent = w.sent ++ [.setnx key value d] ∧
    (Traced.acquireTestLock w key value d).2.sent = w.sent ++ [.setnx key value d] ∧
    (∃ r w', Traced.releaseLock w key value = some (r, w') ∧
      w'.sent = w.sent ++ [.eval unlockScript key value]) ∧
    (∃ r w', Traced.releaseTestLock w key value = some (r, w') ∧
      w'.sent = w.sent ++ [.eval unlockScript key value]) ∧
    ((Traced.acquireLock w key value d).1, (Traced.acquireLock w key value d).2.rdb) =
      acquireLock w.rdb key value d ∧
    (Traced.releaseLock w key value).map (fun x => (x.1, x.2.rdb)) =
      releaseLock w.rdb key value := by
  obtain ⟨b, err, rdb', h⟩ := releaseLock_isSome w.rdb key value
  have hrel : Traced.releaseLock w key value =
      some ((b, err), ⟨rdb', w.sent ++ [.eval unlockScript key value]⟩) := by
    rw [Traced.releaseLock_eq, h]; rfl
  refine ⟨?_, ?_, ⟨_, _, hrel, rfl⟩, ⟨_, _, hrel, rfl⟩, ?_, ?_⟩
  · rw [Traced.acquireLock_eq]
  · rw [Traced.acquireTestLock_copy, Traced.acquireLock_eq]
  · rw [Traced.acquireLock_eq]
  · rw [hrel, h]; rfl

/-! ## Holder tokens are injective in identity and suffix -/

theorem digitValue_digitChar (d : Nat) (h : d < 10) : digitValue (Nat.digitChar d) = d := by
  interval_cases d <;> rfl

theorem digitChar_ne_sep (d : Nat) (h : d < 10) :
    Nat.digitChar d ≠ '_' ∧ Nat.digitChar d ≠ '-' := by
  interval_cases d <;> exact ⟨by decide, by decide⟩

theorem fmtNat_digits (n : Nat) :
    ∀ c ∈ fmtNat n, ∃ d, d < 10 ∧ c = Nat.digitChar d := by
  intro c hc
  unfold fmtNat at hc
  split at hc
  · simp only [List.mem_singleton] at hc
    exact ⟨0, by decide, hc⟩
  · simp only [List.mem_reverse, List.mem_map] at hc
    obtain ⟨d, hd, rfl⟩ := hc
    exact ⟨d, Nat.digits_lt_base (by decide) hd, rfl⟩

theorem fmtNat_ne_nil (n : Nat) : fmtNat n ≠ [] := by
  unfold fmtNat
  split
  · simp
  · rename_i h
    simp [Nat.digits_ne_nil_iff_ne_zero, h]

theorem readNat_fmtNat (n : Nat) : readNat (fmtNat n) = n := by
  unfold readNat fmtNat
  split
  · rename_i h
    subst h
    rfl
  · rw [List.reverse_reverse, List.map_map]
    have : (Nat.digits 10 n).map (digitValue ∘ Nat.digitChar) = Nat.digits 10 n := by
      conv_rhs => rw [← List.map_id (Nat.digits 10 n)]
      apply List.map_congr_left
      intro d hd
      exact digitValue_digitChar d (Nat.digits_lt_base (by decide) hd)
    rw [this, Nat.ofDigits_digits]

theorem readInt_fmtInt (n : Int) : readInt (fmtInt n).data = n := by
  unfold fmtInt
  by_cases hn : n < 0
  · simp only [hn, if_true, readInt, readNat_fmtNat]
    omega
  · simp only [hn, if_false]
    have hne := fmtNat_ne_nil n.toNat
    cases hcs : fmtNat n.toNat with
    | nil => exact absurd hcs hne
    | cons c cs =>
      have hc : c ≠ '-' := by
        obtain ⟨d, hd, rfl⟩ := fmtNat_digits n.toNat c (by rw [hcs]; exact List.mem_cons_self _ _)
        exact (digitChar_ne_sep d hd).2
      have hread : readInt (c :: cs) = (readNat (c :: cs) : Int) := by
        unfold readInt
        split
        · rename_i heq
          simp only [List.cons.injEq] at heq
          exact absurd heq.1 hc
        · rfl
      rw [hread, ← hcs, readNat_fmtNat]
      omega

theorem fmtInt_injective (n m : Int) (h : fmtInt n = fmtInt m) : n = m := by
  rw [← readInt_fmtInt n, ← readInt_fmtInt m, h]

theorem fmtInt_no_underscore (n : Int) : '_' ∉ (fmtInt n).data := by
  intro hmem
  unfold fmtInt at hmem
  by_cases hn : n < 0
  · simp only [hn, if_true, List.mem_cons] at hmem
    rcases hmem with h | h
    · exact absurd h (by decide)
    · obtain ⟨d, hd, hc⟩ := fmtNat_digits _ _ h
      exact (digitChar_ne_sep d hd).1 hc.symm
  · simp only [hn, if_false] at hmem
    obtain ⟨d, hd, hc⟩ := fmtNat_digits _ _ hmem
    exact (digitChar_ne_sep d hd).1 hc.symm

theorem split_at_first (c : Char) :
    ∀ x y a b : List Char, c ∉ x → c ∉ y → x ++ c :: a = y ++ c :: b → x = y ∧ a = b := by
  intro x
  induction x with
  | nil =>
    intro y a b _ hy h
    cases y with
    | nil => simpa using h
    | cons d y =>
      simp only [List.nil_append, List.cons_append, List.cons.injEq] at h
      exact absurd (h.1 ▸ List.mem_cons_self _ _) hy
  | cons e x ih =>
    intro y a b hx hy h
    cases y with
    | nil =>
      simp only [List.nil_append, List.cons_append, List.cons.injEq] at h
      exact absurd (h.1 ▸ List.mem_cons_self _ _) hx
    | cons d y =>
      simp only [List.cons_append, List.cons.injEq] at h
      obtain ⟨hxy, hab⟩ := ih y a b (fun hm => hx (List.mem_cons_of_mem _ hm))
        (fun hm => hy (List.mem_cons_of_mem _ hm)) h.2
      exact ⟨by rw [h.1, hxy], hab⟩

theorem split_at_last (c : Char) (a b x y : List Char) (hx : c ∉ x) (hy : c ∉ y)
    (h : a ++ c :: x = b ++ c :: y) : a = b ∧ x = y := by
  have hrev := congrArg List.reverse h
  simp only [List.reverse_append, List.reverse_cons, List.append_assoc,
    List.singleton_append] at hrev
  obtain ⟨h1, h2⟩ := split_at_first c x.reverse y.reverse a.reverse b.reverse
    (by simpa using hx) (by simpa using hy) hrev
  exact ⟨List.reverse_injective h2, List.reverse_injective h1⟩

theorem processToken_inj (p1 p2 : String) (n1 n2 : Int)
    (h : processToken p1 n1 = processToken p2 n2) : p1 = p2 ∧ n1 = n2 := by
  have hd := congrArg String.data h
  simp only [processToken, String.data_append, List.append_assoc] at hd
  have hd2 := List.append_cancel_left hd
  obtain ⟨hp, hn⟩ := split_at_last '_' p1.data p2.data (fmtInt n1).data (fmtInt n2).data
    (fmtInt_no_underscore n1) (fmtInt_no_underscore n2) (by simpa using hd2)
  exact ⟨String.ext hp, fmtInt_injective n1 n2 (String.ext hn)⟩

theorem prefixed_ints_inj (pre : String) (i1 i2 n1 n2 : Int)
    (h : pre ++ fmtInt i1 ++ "_" ++ fmtInt n1 = pre ++ fmtInt i2 ++ "_" ++ fmtInt n2) :
    i1 = i2 ∧ n1 = n2 := by
  have hd := congrArg String.data h
  simp only [String.data_append, List.append_assoc] at hd
  have hd2 := List.append_cancel_left hd
  obtain ⟨hp, hn⟩ := split_at_last '_' (fmtInt i1).data (fmtInt i2).data (fmtInt n1).data
    (fmtInt n2).data (fmtInt_no_underscore n1) (fmtInt_no_underscore n2) (by simpa using hd2)
  exact ⟨fmtInt_injective i1 i2 (String.ext hp), fmtInt_injective n1 n2 (String.ext hn)⟩

/-- C13: token generation is injective in (caller identity, suffix).  For all
process-ID strings `p1`, `p2`, integer goroutine ids `i1`, `i2` and timestamps
`n1`, `n2`: `Sprintf("process_%s_%d", p1, n1) = Sprintf("process_%s_%d", p2, n2)`
only if `p1 = p2` and `n1 = n2`, likewise for `"goroutine_%d_%d"` and
`"race_%d_%d"`; hence callers with distinct identities present distinct tokens
even when their timestamps coincide. -/
theorem token_generation_injective (p1 p2 : String) (i1 i2 n1 n2 : Int) :
    (processToken p1 n1 = processToken p2 n2 → p1 = p2 ∧ n1 = n2) ∧
    (goroutineToken i1 n1 = goroutineToken i2 n2 → i1 = i2 ∧ n1 = n2) ∧
    (raceToken i1 n1 = raceToken i2 n2 → i1 = i2 ∧ n1 = n2) ∧
    (p1 ≠ p2 → processToken p1 n1 ≠ processToken p2 n1) ∧
    (i1 ≠ i2 → goroutineToken i1 n1 ≠ goroutineToken i2 n1 ∧
      raceToken i1 n1 ≠ raceToken i2 n1) :=
  ⟨processToken_inj p1 p2 n1 n2,
   prefixed_ints_inj "goroutine_" i1 i2 n1 n2,
   prefixed_ints_inj "race_" i1 i2 n1 n2,
   fun hne h => hne (processToken_inj p1 p2 n1 n1 h).1,
   fun hne => ⟨fun h => hne (prefixed_ints_inj "goroutine_" i1 i2 n1 n1 h).1,
     fun h => hne (prefixed_ints_inj "race_" i1 i2 n1 n1 h).1⟩⟩

/-- Witness of C13: processes `"1"` and `"2"` and goroutines `0` and `1` that read
the same clock value still present different tokens. -/
theorem token_generation_injective_witness :
    processToken "1" 1700000000000000000 ≠ processToken "2" 1700000000000000000 ∧
    goroutineToken 0 1700000000000000000 ≠ goroutineToken 1 1700000000000000000 :=
  ⟨(token_generation_injective "1" "2" 0 1 1700000000000000000 1700000000000000000).2.2.2.1
      (by decide),
   ((token_generation_injective "1" "2" 0 1 1700000000000000000 1700000000000000000).2.2.2.2
      (by decide)).1⟩

/-! ## The token of the demonstration and the race of the concurrency test -/

theorem Traced.distributedLockExample_sent (w : Wire) :
    ∃ w', Traced.distributedLockExample w = some w' ∧ w'.rdb.fault = w.rdb.fault ∧
      (w'.sent = w.sent ++ [.setnx "mylock" "lock_value_123" (30 * Second)] ∨
       w'.sent = w.sent ++ [.setnx "mylock" "lock_value_123" (30 * Second)] ++
         [.eval unlockScript "mylock" "lock_value_123"]) := by
  obtain ⟨rdb, sent⟩ := w
  obtain ⟨s, f⟩ := rdb
  unfold Traced.distributedLockExample
  rw [Traced.acquireLock_eq]
  cases f with
  | some e => simp [acquireLock_fault]
  | none =>
    cases hk : s.find "mylock" with
    | some r => simp [acquireLock_held s _ _ _ r hk]
    | none =>
      simp only [acquireLock_free s _ _ _ hk, Traced.releaseLock_eq, Wire.sleep,
        Client.sleep_mk]
      obtain ⟨b, err, rdb', h⟩ := releaseLock_isSome
        ⟨(s.put "mylock" "lock_value_123" (30 * Second)).advance (2 * Second), none⟩
        "mylock" "lock_value_123"
      have hfault : rdb'.fault = none := by
        by_cases hm : ((s.put "mylock" "lock_value_123" (30 * Second)).advance
            (2 * Second)).get "mylock" = some "lock_value_123"
        · rw [releaseLock_match _ _ _ hm] at h
          simp only [Option.some.injEq, Prod.mk.injEq] at h
          rw [← h.2]
        · rw [releaseLock_mismatch _ _ _ hm] at h
          simp only [Option.some.injEq, Prod.mk.injEq] at h
          rw [← h.2]
      rw [h]
      exact ⟨_, rfl, hfault, Or.inr rfl⟩

/-- C14, the code at the failing input: every execution of
`distributedLockExample`, on whatever connection and at whatever time, presents
the same token `"lock_value_123"` to Acquire for the key `"mylock"`.  And when an
execution A acquires, stalls for 31 s so that its 30 s lease expires, and an
execution B then acquires, A's Release matches B's record: it returns `true` and
the key is absent afterwards. -/
theorem example_token_is_constant (w : Wire) :
    (∃ w', Traced.distributedLockExample w = some w' ∧
      acquireTokens w'.sent = acquireTokens w.sent ++ ["lock_value_123"]) ∧
    (acquireLock freshClient "mylock" "lock_value_123" (30 * Second)).1 = (true, none) ∧
    (acquireLock ((acquireLock freshClient "mylock" "lock_value_123" (30 * Second)).2.sleep
      (31 * Second)) "mylock" "lock_value_123" (30 * Second)).1 = (true, none) ∧
    (releaseLock (acquireLock ((acquireLock freshClient "mylock" "lock_value_123"
        (30 * Second)).2.sleep (31 * Second)) "mylock" "lock_value_123" (30 * Second)).2
      "mylock" "lock_value_123").map (fun x => (x.1, x.2.store.get "mylock")) =
      some ((true, none), none) := by
  refine ⟨?_, by decide, by decide, by decide⟩
  obtain ⟨w', h, _, hs | hs⟩ := Traced.distributedLockExample_sent w
  · exact ⟨w', h, by simp [hs, acquireTokens, List.filterMap_append]⟩
  · exact ⟨w', h, by simp [hs, acquireTokens, List.filterMap_append]⟩

theorem Race.run_losers (key : String) (ttl : Int) (s : Store) (rec : Record)
    (hrec : s.find key = some rec) (rest : List String) :
    ∀ (st ho : List String) (ac re : List (String × Bool)),
      (∀ t ∈ rest, t ∉ ho ∧ t ∉ st) → rest.Nodup →
      Race.run key ttl ⟨⟨s, none⟩, st, ho, ac, re⟩ rest =
        ⟨⟨s, none⟩, rest.reverse ++ st, ho, ac ++ rest.map (fun t => (t, false)), re⟩ := by
  induction rest with
  | nil => intro st ho ac re _ _; simp [Race.run]
  | cons t rest ih =>
    intro st ho ac re hfresh hnodup
    obtain ⟨htho, htst⟩ := hfresh t (List.mem_cons_self _ _)
    have hstep : Race.step key ttl ⟨⟨s, none⟩, st, ho, ac, re⟩ t =
        ⟨⟨s, none⟩, t :: st, ho, ac ++ [(t, false)], re⟩ := by
      simp [Race.step, htho, htst, acquireTestLock_eq, acquireLock_held s key t ttl rec hrec]
    have hnd := List.nodup_cons.1 hnodup
    have hfresh2 : ∀ u ∈ rest, u ∉ ho ∧ u ∉ t :: st := by
      intro u hu
      obtain ⟨h1, h2⟩ := hfresh u (List.mem_cons_of_mem _ hu)
      refine ⟨h1, ?_⟩
      simp only [List.mem_cons, not_or]
      exact ⟨fun h => hnd.1 (h ▸ hu), h2⟩
    have := ih (t :: st) ho (ac ++ [(t, false)]) re hfresh2 hnd.2
    simp only [Race.run, List.foldl_cons, hstep] at this ⊢
    rw [this]
    simp

/-- The schedules on which the assertion of the test holds: when the Acquire calls
of the goroutines, with pairwise distinct tokens and a positive ttl on an
initially free key, are all served before the winner's Release (in whatever order
`first :: rest`), exactly one Acquire returns `true`, the first served, all
others return `false`, and the single winner's Release returns `true`. -/
theorem race_one_winner (rdb : Client) (key : String) (ttl : Int) (first : String)
    (rest : List String) (hok : rdb.fault = none) (hfree : rdb.store.find key = none)
    (httl : 0 < ttl) (hnodup : (first :: rest).Nodup) :
    (Race.run key ttl (Race.init rdb) (first :: rest ++ [first])).acquired =
      (first, true) :: rest.map (fun t => (t, false)) ∧
    (Race.run key ttl (Race.init rdb) (first :: rest ++ [first])).released =
      [(first, true)] ∧
    (Race.run key ttl (Race.init rdb) (first :: rest ++ [first])).successCount = 1 ∧
    (Race.run key ttl (Race.init rdb) (first :: rest ++ [first])).holding = [] := by
  obtain ⟨s, f⟩ := rdb
  simp only at hok hfree
  subst hok
  have hnd := List.nodup_cons.1 hnodup
  have hstep : Race.step key ttl (Race.init ⟨s, none⟩) first =
      ⟨⟨s.put key first ttl, none⟩, [first], [first], [(first, true)], []⟩ := by
    simp [Race.step, Race.init, acquireTestLock_eq, acquireLock_free s key first ttl hfree]
  have hrec := Store.find_put_same s key first ttl httl
  have hfresh : ∀ t ∈ rest, t ∉ [first] ∧ t ∉ [first] := by
    intro t ht
    have : t ≠ first := fun h => hnd.1 (h ▸ ht)
    simp [this]
  have hrun := Race.run_losers key ttl (s.put key first ttl) _ hrec rest [first] [first]
    [(first, true)] [] hfresh hnd.2
  have hget : (s.put key first ttl).get key = some first := by
    simp [Store.get, hrec]
  have hfinal : Race.run key ttl (Race.init ⟨s, none⟩) (first :: rest ++ [first]) =
      ⟨⟨(s.put key first ttl).erase key, none⟩, rest.reverse ++ [first], [],
        [(first, true)] ++ rest.map (fun t => (t, false)), [(first, true)]⟩ := by
    simp only [Race.run, List.cons_append, List.foldl_cons, List.foldl_append, hstep,
      List.foldl_nil] at hrun ⊢
    rw [hrun]
    simp [Race.step, releaseTestLock_eq, releaseLock_match _ key first hget]
  rw [hfinal]
  simp [Race.successCount, List.filter_cons, List.filter_map]

/-- The ten goroutines of the test, served in order before the winner releases:
one Acquire succeeds and the winner's Release returns `true`. -/
theorem race_one_winner_witness :
    (Race.run "test_concurrent_lock" (5 * Second) (Race.init freshClient)
      (tenTokens ++ ["goroutine_0_1"])).successCount = 1 ∧
    (Race.run "test_concurrent_lock" (5 * Second) (Race.init freshClient)
      (tenTokens ++ ["goroutine_0_1"])).released = [("goroutine_0_1", true)] :=
  have h := race_one_winner freshClient "test_concurrent_lock" (5 * Second) "goroutine_0_1"
    tenTokens.tail rfl rfl (by decide) (by decide)
  ⟨h.2.2.1, h.2.1⟩

/-- C15: the goroutines of `TestDistributedLockConcurrency` at a schedule on which
the test's own assertion `successCount == 1` fails.  Goroutine 0 acquires and
releases before the Acquire of goroutine 1 is served, the other goroutines follow
and goroutine 1 releases last.  All ten goroutines have run to completion, no
lock is left held, and two Acquire calls have returned `true`. -/
theorem race_two_winners :
    (Race.run "test_concurrent_lock" (5 * Second) (Race.init freshClient)
      ("goroutine_0_1" :: "goroutine_0_1" :: tenTokens.tail ++ ["goroutine_1_1"])).successCount
      = 2 ∧
    (Race.run "test_concurrent_lock" (5 * Second) (Race.init freshClient)
      ("goroutine_0_1" :: "goroutine_0_1" :: tenTokens.tail ++ ["goroutine_1_1"])).holding
      = [] ∧
    (Race.run "test_concurrent_lock" (5 * Second) (Race.init freshClient)
      ("goroutine_0_1" :: "goroutine_0_1" :: tenTokens.tail ++ ["goroutine_1_1"])).started.length
      = 10 := by
  decide

/-! ## The harness and the entry point -/

theorem lockKeys_append (a b : List Request) : lockKeys (a ++ b) = lockKeys a ++ lockKeys b := by
  simp [lockKeys, List.filterMap_append]

theorem Traced.releaseLock_some (w : Wire) (key value : String) :
    ∃ r rdb', Traced.releaseLock w key value =
      some (r, ⟨rdb', w.sent ++ [.eval unlockScript key value]⟩) := by
  obtain ⟨b, err, rdb', h⟩ := releaseLock_isSome w.rdb key value
  exact ⟨(b, err), rdb', by rw [Traced.releaseLock_eq, h]; rfl⟩

theorem Wire.sent_iterate_sleep (d : Int) (n : Nat) (w : Wire) :
    ((fun x : Wire => x.sleep d)^[n] w).sent = w.sent := by
  induction n generalizing w with
  | zero => rfl
  | succ n ih => rw [Function.iterate_succ_apply, ih]; rfl

theorem Traced.testConcurrentLock_keys (w : Wire) (processID : String) (nano : Int) :
    ∃ w' n, Traced.testConcurrentLock w processID nano = some w' ∧ 1 ≤ n ∧
      lockKeys w'.sent = lockKeys w.sent ++ List.replicate n "test_concurrent_lock" := by
  unfold Traced.testConcurrentLock
  rw [Traced.acquireTestLock_copy, Traced.acquireLock_eq]
  rcases hacq : DistLock.acquireLock w.rdb "test_concurrent_lock"
    (processToken processID nano) (10 * Second) with ⟨⟨b, err⟩, c⟩
  cases err with
  | some e =>
    cases b <;> dsimp only <;>
      exact ⟨_, 1, rfl, le_refl _, by simp [lockKeys_append, lockKeys, Request.lockKey]⟩
  | none =>
    cases b with
    | false =>
      dsimp only
      exact ⟨_, 1, rfl, le_refl _, by simp [lockKeys_append, lockKeys, Request.lockKey]⟩
    | true =>
      dsimp only
      simp only [Traced.releaseTestLock_copy]
      obtain ⟨r, rdb', h⟩ := Traced.releaseLock_some
        ((fun x : Wire => x.sleep (1 * Second))^[5]
          ⟨c, w.sent ++ [.setnx "test_concurrent_lock" (processToken processID nano)
            (10 * Second)]⟩)
        "test_concurrent_lock" (processToken processID nano)
      rw [h]
      refine ⟨_, 2, rfl, by decide, ?_⟩
      simp [Wire.sleep, lockKeys_append, lockKeys, Request.lockKey, List.replicate]

theorem Traced.testLockSafety_keys (w : Wire) (processID : String) (nano : Int) :
    ∃ w' n, Traced.testLockSafety w processID nano = some w' ∧ 1 ≤ n ∧
      lockKeys w'.sent = lockKeys w.sent ++ List.replicate n "test_safety_lock" := by
  unfold Traced.testLockSafety
  rw [Traced.acquireTestLock_copy, Traced.acquireLock_eq]
  rcases hacq : DistLock.acquireLock w.rdb "test_safety_lock"
    (processToken processID nano) (15 * Second) with ⟨⟨b, err⟩, c⟩
  cases err with
  | some e =>
    cases b <;> dsimp only <;>
      exact ⟨_, 1, rfl, le_refl _, by simp [lockKeys_append, lockKeys, Request.lockKey]⟩
  | none =>
    cases b with
    | false =>
      dsimp only
      exact ⟨_, 1, rfl, le_refl _, by simp [lockKeys_append, lockKeys, Request.lockKey]⟩
    | true =>
      dsimp only
      simp only [Traced.releaseTestLock_copy]
      obtain ⟨r1, rdb1, h1⟩ := Traced.releaseLock_some
        ⟨c, w.sent ++ [.setnx "test_safety_lock" (processToken processID nano)
          (15 * Second)]⟩ "test_safety_lock" "wrong_value"
      rw [h1]
      simp only
      obtain ⟨r2, rdb2, h2⟩ := Traced.releaseLock_some
        ⟨rdb1, w.sent ++ [.setnx "test_safety_lock" (processToken processID nano)
          (15 * Second)] ++ [.eval unlockScript "test_safety_lock" "wrong_value"]⟩
        "test_safety_lock" (processToken processID nano)
      rw [h2]
      refine ⟨_, 3, rfl, by decide, ?_⟩
      simp [lockKeys_append, lockKeys, Request.lockKey, List.replicate]

theorem Traced.testLockTimeout_keys (w : Wire) (processID : String) (nano : Int) :
    ∃ w' n, Traced.testLockTimeout w processID nano = some w' ∧ 1 ≤ n ∧
      lockKeys w'.sent = lockKeys w.sent ++ List.replicate n "test_timeout_lock" := by
  unfold Traced.testLockTimeout
  rw [Traced.acquireTestLock_copy, Traced.acquireLock_eq]
  rcases hacq : DistLock.acquireLock w.rdb "test_timeout_lock"
    (processToken processID nano) (5 * Second) with ⟨⟨b, err⟩, c⟩
  cases err with
  | some e =>
    cases b <;> dsimp only <;>
      exact ⟨_, 1, rfl, le_refl _, by simp [lockKeys_append, lockKeys, Request.lockKey]⟩
  | none =>
    cases b with
    | false =>
      dsimp only
      exact ⟨_, 1, rfl, le_refl _, by simp [lockKeys_append, lockKeys, Request.lockKey]⟩
    | true =>
      dsimp only
      simp only [Traced.releaseTestLock_copy]
      obtain ⟨r, rdb', h⟩ := Traced.releaseLock_some
        (Wire.sleep ⟨c, w.sent ++ [.setnx "test_timeout_lock" (processToken processID nano)
          (5 * Second)]⟩ (5 * Second + 2 * Second))
        "test_timeout_lock" (processToken processID nano)
      rw [h]
      refine ⟨_, 2, rfl, by decide, ?_⟩
      simp [Wire.sleep, lockKeys_append, lockKeys, Request.lockKey, List.replicate]

theorem Wire.Ping_ok (w : Wire) (h : w.rdb.fault = none) :
    w.Ping = (("PONG", none), ⟨w.rdb, w.sent ++ [.ping]⟩) := by
  simp [Wire.Ping, h]

theorem Traced.testLockMain_mode (prog processID mode : String) (extra : List String)
    (nano : Int) (w : Wire) (hok : w.rdb.fault = none) :
    Traced.testLockMain (prog :: processID :: mode :: extra) nano w =
      if mode = "concurrent" then
        (Traced.testConcurrentLock ⟨w.rdb, w.sent ++ [.ping]⟩ processID nano).map
          fun w2 => (0, w2)
      else if mode = "safety" then
        (Traced.testLockSafety ⟨w.rdb, w.sent ++ [.ping]⟩ processID nano).map
          fun w2 => (0, w2)
      else if mode = "timeout" then
        (Traced.testLockTimeout ⟨w.rdb, w.sent ++ [.ping]⟩ processID nano).map
          fun w2 => (0, w2)
      else some (0, ⟨w.rdb, w.sent ++ [.ping]⟩) := by
  simp only [Traced.testLockMain, Wire.Ping_ok w hok]

theorem Traced.testLockMain_default (prog processID : String) (nano : Int) (w : Wire)
    (hok : w.rdb.fault = none) :
    Traced.testLockMain [prog, processID] nano w =
      (Traced.testConcurrentLock ⟨w.rdb, w.sent ++ [.ping]⟩ processID nano).map
        fun w2 => (0, w2) := by
  simp [Traced.testLockMain, Wire.Ping_ok w hok]

/-- C17: mode dispatch of the harness.  Given a process identifier and a reachable
store, `testLockMain` with mode `"concurrent"`, or with the mode omitted, runs
exactly `testConcurrentLock` and its lock commands are all on
`"test_concurrent_lock"`; with `"safety"` it runs exactly `testLockSafety` on
`"test_safety_lock"`; with `"timeout"` exactly `testLockTimeout` on
`"test_timeout_lock"`; the key is the same for every process identifier; and with
any other mode string it sends the ping and no Acquire or Release at all. -/
theorem testLockMain_dispatch (prog processID : String) (extra : List String) (nano : Int)
    (w : Wire) (hok : w.rdb.fault = none) :
    (Traced.testLockMain [prog, processID] nano w =
        (Traced.testConcurrentLock w.Ping.2 processID nano).map (fun w2 => (0, w2)) ∧
      Traced.testLockMain (prog :: processID :: "concurrent" :: extra) nano w =
        (Traced.testConcurrentLock w.Ping.2 processID nano).map (fun w2 => (0, w2)) ∧
      ∃ w' n, Traced.testLockMain (prog :: processID :: "concurrent" :: extra) nano w =
          some (0, w') ∧ 1 ≤ n ∧
        lockKeys w'.sent = lockKeys w.sent ++ List.replicate n "test_concurrent_lock") ∧
    (Traced.testLockMain (prog :: processID :: "safety" :: extra) nano w =
        (Traced.testLockSafety w.Ping.2 processID nano).map (fun w2 => (0, w2)) ∧
      ∃ w' n, Traced.testLockMain (prog :: processID :: "safety" :: extra) nano w =
          some (0, w') ∧ 1 ≤ n ∧
        lockKeys w'.sent = lockKeys w.sent ++ List.replicate n "test_safety_lock") ∧
    (Traced.testLockMain (prog :: processID :: "timeout" :: extra) nano w =
        (Traced.testLockTimeout w.Ping.2 processID nano).map (fun w2 => (0, w2)) ∧
      ∃ w' n, Traced.testLockMain (prog :: processID :: "timeout" :: extra) nano w =
          some (0, w') ∧ 1 ≤ n ∧
        lockKeys w'.sent = lockKeys w.sent ++ List.replicate n "test_timeout_lock") ∧
    (∀ mode, mode ≠ "concurrent" → mode ≠ "safety" → mode ≠ "timeout" →
      Traced.testLockMain (prog :: processID :: mode :: extra) nano w =
        some (0, ⟨w.rdb, w.sent ++ [.ping]⟩) ∧
      lockKeys (w.sent ++ [.ping]) = lockKeys w.sent) := by
  have hping : w.Ping.2 = ⟨w.rdb, w.sent ++ [.ping]⟩ := by rw [Wire.Ping_ok w hok]
  have hkeys : lockKeys (w.sent ++ [.ping]) = lockKeys w.sent := by
    simp [lockKeys_append, lockKeys, Request.lockKey]
  rw [hping]
  refine ⟨⟨Traced.testLockMain_default prog processID nano w hok, ?_, ?_⟩, ⟨?_, ?_⟩,
    ⟨?_, ?_⟩, ?_⟩
  · rw [Traced.testLockMain_mode _ _ _ _ _ _ hok]; simp
  · obtain ⟨w', n, h, hn, hk⟩ :=
      Traced.testConcurrentLock_keys ⟨w.rdb, w.sent ++ [.ping]⟩ processID nano
    refine ⟨w', n, ?_, hn, by rw [hk, hkeys]⟩
    rw [Traced.testLockMain_mode _ _ _ _ _ _ hok, h]; simp
  · rw [Traced.testLockMain_mode _ _ _ _ _ _ hok]; simp
  · obtain ⟨w', n, h, hn, hk⟩ :=
      Traced.testLockSafety_keys ⟨w.rdb, w.sent ++ [.ping]⟩ processID nano
    refine ⟨w', n, ?_, hn, by rw [hk, hkeys]⟩
    rw [Traced.testLockMain_mode _ _ _ _ _ _ hok, h]; simp
  · rw [Traced.testLockMain_mode _ _ _ _ _ _ hok]; simp
  · obtain ⟨w', n, h, hn, hk⟩ :=
      Traced.testLockTimeout_keys ⟨w.rdb, w.sent ++ [.ping]⟩ processID nano
    refine ⟨w', n, ?_, hn, by rw [hk, hkeys]⟩
    rw [Traced.testLockMain_mode _ _ _ _ _ _ hok, h]; simp
  · intro mode h1 h2 h3
    refine ⟨?_, hkeys⟩
    rw [Traced.testLockMain_mode _ _ _ _ _ _ hok]
    simp [h1, h2, h3]

/-- Witness of C17: process `"7"` in mode `"renewal"`, which is no mode of the
harness, pings the store and sends nothing else. -/
theorem testLockMain_dispatch_witness :
    Traced.testLockMain ["test_lock", "7", "renewal"] 5 freshWire =
      some (0, ⟨freshClient, [.ping]⟩) :=
  ((testLockMain_dispatch "test_lock" "7" [] 5 freshWire rfl).2.2.2 "renewal" (by decide)
    (by decide) (by decide)).1

theorem Traced.basicOperations_lockKeys (pc : PlainCommands) (w : Wire) :
    lockKeys (Traced.basicOperations pc w).sent = lockKeys w.sent := by
  obtain ⟨⟨s, f⟩, sent⟩ := w
  cases f with
  | some e =>
    simp [Traced.basicOperations, Wire.Set, lockKeys_append, lockKeys, Request.lockKey]
  | none =>
    cases hget : (pc.set s "key1" "value1" 0).get "key1" with
    | none =>
      simp [Traced.basicOperations, Wire.Set, Wire.Get, Client.Get, hget, lockKeys_append,
        lockKeys, Request.lockKey]
    | some v =>
      simp [Traced.basicOperations, Wire.Set, Wire.Get, Client.Get, Wire.Exists, Wire.Del,
        hget, lockKeys_append, lockKeys, Request.lockKey]

/-- C18, the code at the failing input: `main` of `src/main.go` does the same
whatever the arguments; started as `lock 7 safety` against a reachable empty store
it exits with code 0 after lock commands that are all on the key `"mylock"` of
`distributedLockExample`, whereas `testLockMain` on the same arguments sends its
lock commands on `"test_safety_lock"`. -/
theorem main_ignores_arguments (pc : PlainCommands) (nano : Int) :
    (∀ args1 args2 w, Traced.main pc args1 w = Traced.main pc args2 w) ∧
    (∃ w' n, Traced.main pc ["lock", "7", "safety"] freshWire = some (0, w') ∧ 1 ≤ n ∧
      lockKeys w'.sent = List.replicate n "mylock") ∧
    (∃ w' n, Traced.testLockMain ["lock", "7", "safety"] nano freshWire = some (0, w') ∧
      1 ≤ n ∧ lockKeys w'.sent = List.replicate n "test_safety_lock") := by
  refine ⟨fun _ _ _ => rfl, ?_, ?_⟩
  · have hmain : Traced.main pc ["lock", "7", "safety"] freshWire =
        (Traced.distributedLockExample
          (Traced.basicOperations pc ⟨freshClient, [.ping]⟩)).map fun w2 => (0, w2) := rfl
    obtain ⟨w', h, _, hs⟩ :=
      Traced.distributedLockExample_sent (Traced.basicOperations pc ⟨freshClient, [.ping]⟩)
    have hbase : lockKeys (Traced.basicOperations pc ⟨freshClient, [.ping]⟩).sent = [] := by
      rw [Traced.basicOperations_lockKeys]; rfl
    rcases hs with hs | hs
    · refine ⟨w', 1, by rw [hmain, h]; rfl, le_refl _, ?_⟩
      rw [hs, lockKeys_append, hbase]; rfl
    · refine ⟨w', 2, by rw [hmain, h]; rfl, by decide, ?_⟩
      rw [hs, lockKeys_append, lockKeys_append, hbase]; rfl
  · obtain ⟨w', n, h, hn, hk⟩ :=
      Traced.testLockSafety_keys ⟨freshClient, [.ping]⟩ "7" nano
    refine ⟨w', n, ?_, hn, by rw [hk]; rfl⟩
    rw [Traced.testLockMain_mode "lock" "7" "safety" [] nano freshWire rfl]
    simp only [freshWire, List.nil_append]
    rw [h]
    simp

end DistLock

/-! ## The initial state of a new user -/

namespace FsmTest

/-- C19, the code at the failing input: `NewUser` starts the state machine in the
state it is given, not in `"pending_review"`: for every `id`, `name` and
`currentStatus` the current state of the machine and the field `CurrentState` are
`currentStatus`.  For the call of `main`, `NewUser("111", "Daniel",
StateApproved)`, both are `"approved"`, which is not `"pending_review"`, and the
`Approve` that `main` then attempts is refused and changes nothing. -/
theorem newUser_starts_in_given_state :
    (∀ id name currentStatus : String,
      (NewUser id name currentStatus).FSM.current = currentStatus ∧
      (NewUser id name currentStatus).CurrentState = currentStatus) ∧
    (NewUser "111" "Daniel" StateApproved).FSM.current = "approved" ∧
    (NewUser "111" "Daniel" StateApproved).CurrentState = "approved" ∧
    (NewUser "111" "Daniel" StateApproved).FSM.current ≠ StatePendingReview ∧
    mainUser.Approve = (some (.invalidEvent "approve" "approved"), mainUser) :=
  ⟨fun _ _ _ => ⟨rfl, rfl⟩, rfl, rfl, by decide, by decide⟩

end FsmTest

/-! ## The concurrent sum of squares -/

namespace SumOfSquares

/-- C20, the code at the failing input: for `n = 5` and `workerCount = 2` the chunk
size is `2`, the two workers cover `0..1` and `2..3`, and with the final `n * n`
the concurrent function returns `0 + 1 + 4 + 9 + 25 = 39`, while the serial
function returns `1 + 4 + 9 + 16 + 25 = 55`: the term `4²` of the remainder is
lost.  With more workers than numbers (`n = 3`, `workerCount = 5`) the chunks are
empty and only `n * n = 9` is returned instead of `14`. -/
theorem concurrent_sum_loses_remainder :
    concurrentSumOfSquares 5 2 = 39 ∧ serialSumOfSquares 5 = 55 ∧
    specSumOfSquares 5 = 55 ∧
    concurrentSumOfSquares 3 5 = 9 ∧ serialSumOfSquares 3 = 14 ∧
    specSumOfSquares 3 = 14 := by
  decide

end SumOfSquares

/-! ## The transitions of the user state machine -/

namespace FsmTest

theorem UserFsm.Event_mirror (u : UserFsm) (event : String)
    (h : u.CurrentState = u.FSM.current) :
    (u.Event event).2.CurrentState = (u.Event event).2.FSM.current := by
  unfold UserFsm.Event
  split
  · split <;> exact h
  · split
    · exact h
    · rfl

theorem UserFsm.call_mirror (u : UserFsm) (c : Call) (h : u.CurrentState = u.FSM.current) :
    (u.call c).2.CurrentState = (u.call c).2.FSM.current := by
  cases c <;> exact UserFsm.Event_mirror u _ h

theorem UserFsm.calls_mirror (cs : List Call) :
    ∀ u : UserFsm, u.CurrentState = u.FSM.current →
      (u.calls cs).CurrentState = (u.calls cs).FSM.current := by
  induction cs with
  | nil => intro u h; exact h
  | cons c cs ih =>
    intro u h
    exact ih (u.call c).2 (UserFsm.call_mirror u c h)

/-- C26: once a user consumes it returns to Active.  For every user with the event
table of `NewUser` whose state is `inactive` or `overdue`, `OnConsume` returns no
error and the state (of the machine and the `CurrentState` field) becomes
`active`; from `pending_review`, `approved`, `rejected` and `active` it returns an
error and leaves the user unchanged. -/
theorem onConsume_returns_to_active (u : UserFsm) (hev : u.FSM.events = userEvents) :
    (u.FSM.current = StateInactive ∨ u.FSM.current = StateOverdue →
      u.OnConsume =
        (none, { u with FSM := ⟨StateActive, userEvents⟩, CurrentState := StateActive })) ∧
    (u.FSM.current = StatePendingReview ∨ u.FSM.current = StateApproved ∨
        u.FSM.current = StateRejected ∨ u.FSM.current = StateActive →
      ∃ e, u.OnConsume = (some e, u)) := by
  obtain ⟨id, name, ⟨cur, ev⟩, cs⟩ := u
  simp only at hev
  subst hev
  constructor
  · rintro (h | h) <;> simp only at h <;> subst h <;> rfl
  · rintro (h | h | h | h) <;> simp only at h <;> subst h <;> exact ⟨_, rfl⟩

/-- Witness of C26: an overdue user consumes and is active again; an approved user
cannot consume. -/
theorem onConsume_returns_to_active_witness :
    (NewUser "111" "Daniel" StateOverdue).OnConsume = (none, NewUser "111" "Daniel" StateActive) ∧
    ∃ e, (NewUser "111" "Daniel" StateApproved).OnConsume =
      (some e, NewUser "111" "Daniel" StateApproved) :=
  ⟨(onConsume_returns_to_active (NewUser "111" "Daniel" StateOverdue) rfl).1 (Or.inr rfl),
   (onConsume_returns_to_active (NewUser "111" "Daniel" StateApproved) rfl).2
     (Or.inr (Or.inl rfl))⟩

/-- C27: the persisted state mirrors the state machine.  For every user built by
`NewUser` and every finite sequence of `Approve`, `Reject`,
`MarkInactiveAfter30d`, `MarkOverdueAfter90d` and `OnConsume` calls, accepted or
refused, the `CurrentState` field equals the current state of the machine after
the sequence, hence after every call of it. -/
theorem currentState_mirrors_machine (id name currentStatus : String) (cs : List Call) :
    ((NewUser id name currentStatus).calls cs).CurrentState =
      ((NewUser id name currentStatus).calls cs).FSM.current :=
  UserFsm.calls_mirror cs (NewUser id name currentStatus) rfl

end FsmTest

/-! ## Locks on different keys -/

namespace DistLock

theorem Store.find_withRecord_other (s : Store) (key other : String) (r : Option Record)
    (h : key ≠ other) : (s.withRecord other r).find key = s.find key := by
  simp [Store.find, Store.withRecord, h]

theorem Store.get_withRecord_other (s : Store) (key other : String) (r : Option Record)
    (h : key ≠ other) : (s.withRecord other r).get key = s.get key := by
  simp [Store.get, Store.find_withRecord_other s key other r h]

/-- C28: locks on different keys are independent.  For every client state and keys
`other ≠ key`, an Acquire or a Release on `key`, whatever its token, ttl or
outcome, leaves the record under `other` as it is (the stored record and the clock,
hence presence, value and remaining expiry), and its result is the same whatever
record is stored under `other`. -/
theorem other_keys_untouched (rdb : Client) (key other value : String) (d : Int)
    (hne : other ≠ key) :
    ((acquireLock rdb key value d).2.store.recs other = rdb.store.recs other ∧
      (acquireLock rdb key value d).2.store.now = rdb.store.now ∧
      (acquireLock rdb key value d).2.store.find other = rdb.store.find other ∧
      (acquireLock rdb key value d).2.store.ttl other = rdb.store.ttl other) ∧
    (∃ r rdb', releaseLock rdb key value = some (r, rdb') ∧
      rdb'.store.recs other = rdb.store.recs other ∧ rdb'.store.now = rdb.store.now ∧
      rdb'.store.find other = rdb.store.find other ∧
      rdb'.store.ttl other = rdb.store.ttl other) ∧
    (∀ r : Option Record,
      (acquireLock ⟨rdb.store.withRecord other r, rdb.fault⟩ key value d).1 =
        (acquireLock rdb key value d).1 ∧
      (releaseLock ⟨rdb.store.withRecord other r, rdb.fault⟩ key value).map Prod.fst =
        (releaseLock rdb key value).map Prod.fst) ∧
    acquireTestLock rdb key value d = acquireLock rdb key value d ∧
    releaseTestLock rdb key value = releaseLock rdb key value := by
  obtain ⟨s, f⟩ := rdb
  have hput : ∀ t : Store, t.recs other = s.recs other → t.now = s.now →
      t.recs other = s.recs other ∧ t.now = s.now ∧ t.find other = s.find other ∧
        t.ttl other = s.ttl other := by
    intro t h1 h2
    refine ⟨h1, h2, ?_, ?_⟩
    · simp [Store.find, h1, h2]
    · simp [Store.ttl, Store.find, h1, h2]
  refine ⟨?_, ?_, ?_, rfl, rfl⟩
  · cases f with
    | some e =>
      rw [acquireLock_fault]
      cases he : e.served with
      | false => exact hput s rfl rfl
      | true =>
        cases hk : s.find key with
        | none =>
          simp only [Store.setIfAbsent_free s key value d hk, if_true]
          exact hput _ (by simp [Store.put, hne]) rfl
        | some r =>
          simp [Store.setIfAbsent_held s key value d r hk]
    | none =>
      cases hk : s.find key with
      | none =>
        rw [acquireLock_free s key value d hk]
        exact hput _ (by simp [Store.put, hne]) rfl
      | some r => rw [acquireLock_held s key value d r hk]; exact hput s rfl rfl
  · cases f with
    | some e =>
      refine ⟨_, _, releaseLock_fault s key value e, ?_⟩
      cases he : e.served with
      | false => exact hput s rfl rfl
      | true =>
        by_cases hk : s.get key = some value
        · simp only [unlockScript_match s key value hk, if_true]
          exact hput _ (by simp [Store.erase, hne]) rfl
        · simp [unlockScript_mismatch s key value hk]
    | none =>
      by_cases hk : s.get key = some value
      · exact ⟨_, _, releaseLock_match s key value hk,
          hput _ (by simp [Store.erase, hne]) rfl⟩
      · exact ⟨_, _, releaseLock_mismatch s key value hk, hput s rfl rfl⟩
  · intro r
    have hfind := Store.find_withRecord_other s key other r (Ne.symm hne)
    have hget := Store.get_withRecord_other s key other r (Ne.symm hne)
    cases f with
    | some e => simp [acquireLock_fault, releaseLock_fault]
    | none =>
      constructor
      · cases hk : s.find key with
        | none =>
          rw [acquireLock_free s key value d hk,
            acquireLock_free _ key value d (hfind.trans hk)]
        | some r0 =>
          rw [acquireLock_held s key value d r0 hk,
            acquireLock_held _ key value d r0 (hfind.trans hk)]
      · by_cases hk : s.get key = some value
        · rw [releaseLock_match s key value hk,
            releaseLock_match _ key value (hget.trans hk)]
          rfl
        · rw [releaseLock_mismatch s key value hk,
            releaseLock_mismatch _ key value (by rw [hget]; exact hk)]
          rfl

/-- Witness of C28: while `"test_safety_lock"` is held, taking
`"test_timeout_lock"` leaves its record and its remaining 15 s alone. -/
theorem other_keys_untouched_witness :
    (acquireLock (acquireLock freshClient "test_safety_lock" "process_1_5" 15).2
      "test_timeout_lock" "process_2_6" 5).2.store.ttl "test_safety_lock" = some 15 :=
  ((other_keys_untouched (acquireLock freshClient "test_safety_lock" "process_1_5" 15).2
    "test_timeout_lock" "test_safety_lock" "process_2_6" 5 (by decide)).1.2.2.2).trans
    (by decide)

end DistLock

/-! ## The bounded blocking queue and the task queue -/

namespace SyncCond

theorem BlockingQueue.step_bound {α : Type} (bq next : BlockingQueue α) (op : QueueOp α)
    (hb : (bq.items.length : Int) ≤ bq.maxSize) (h : bq.step op = some next) :
    (next.items.length : Int) ≤ next.maxSize ∧ next.maxSize = bq.maxSize := by
  cases op with
  | put item =>
    simp only [BlockingQueue.step, BlockingQueue.Put] at h
    split at h
    · exact absurd h (by simp)
    · rename_i hlt
      simp only [Option.some.injEq] at h
      subst h
      simp only [List.length_append, List.length_singleton, Nat.cast_add, Nat.cast_one,
        and_true]
      omega
  | take =>
    simp only [BlockingQueue.step, BlockingQueue.Take] at h
    cases hitems : bq.items with
    | nil => simp [hitems] at h
    | cons item rest =>
      simp only [hitems, Option.map_some', Option.some.injEq] at h
      subst h
      rw [hitems] at hb
      simp only [List.length_cons, Nat.cast_add, Nat.cast_one] at hb
      simp only [and_true]
      omega

theorem BlockingQueue.run_bound {α : Type} (ops : List (QueueOp α)) :
    ∀ bq final : BlockingQueue α, (bq.items.length : Int) ≤ bq.maxSize →
      bq.run ops = some final →
      (final.items.length : Int) ≤ final.maxSize ∧ final.maxSize = bq.maxSize := by
  induction ops with
  | nil =>
    intro bq final hb h
    simp only [BlockingQueue.run, Option.some.injEq] at h
    subst h
    exact ⟨hb, rfl⟩
  | cons op ops ih =>
    intro bq final hb h
    simp only [BlockingQueue.run] at h
    cases hstep : bq.step op with
    | none => simp [hstep] at h
    | some next =>
      simp only [hstep] at h
      obtain ⟨h1, h2⟩ := BlockingQueue.step_bound bq next op hb hstep
      obtain ⟨h3, h4⟩ := ih next final h1 h
      exact ⟨h3, h4.trans h2⟩

theorem BlockingQueue.run_take {α : Type} (ops : List (QueueOp α)) :
    ∀ (bq final : BlockingQueue α) (n : Nat), bq.run ops = some final →
      ∃ mid, bq.run (ops.take n) = some mid := by
  induction ops with
  | nil => intro bq final n h; exact ⟨bq, by simp [BlockingQueue.run]⟩
  | cons op ops ih =>
    intro bq final n h
    cases n with
    | zero => exact ⟨bq, by simp [BlockingQueue.run]⟩
    | succ n =>
      simp only [BlockingQueue.run] at h
      cases hstep : bq.step op with
      | none => simp [hstep] at h
      | some next =>
        simp only [hstep] at h
        obtain ⟨mid, hmid⟩ := ih next final n h
        exact ⟨mid, by simp [BlockingQueue.run, hstep, hmid]⟩

/-- C24: bounded blocking queue.  For every queue created by
`NewBlockingQueue(maxSize)` with `maxSize ≥ 0` and every sequence of `Put` and
`Take` calls that complete one after the other (a `Put` completes only when the
queue is not full, a `Take` only when it is not empty), after every call of the
sequence the number of stored items is at most `maxSize` and not negative, and
`Size` returns that number. -/
theorem blocking_queue_bounded {α : Type} (maxSize : Int) (hmax : 0 ≤ maxSize)
    (ops : List (QueueOp α)) (final : BlockingQueue α)
    (hrun : (NewBlockingQueue maxSize : BlockingQueue α).run ops = some final) :
    (∀ n, ∃ mid, (NewBlockingQueue maxSize : BlockingQueue α).run (ops.take n) = some mid ∧
      mid.Size = mid.items.length ∧ mid.Size ≤ maxSize ∧ 0 ≤ mid.Size) ∧
    final.Size = final.items.length ∧ final.Size ≤ maxSize ∧ 0 ≤ final.Size := by
  have hinit : (((NewBlockingQueue maxSize : BlockingQueue α).items.length : Nat) : Int) ≤
      (NewBlockingQueue maxSize : BlockingQueue α).maxSize := by
    simpa [NewBlockingQueue] using hmax
  constructor
  · intro n
    obtain ⟨mid, hmid⟩ := BlockingQueue.run_take ops _ final n hrun
    obtain ⟨h1, h2⟩ := BlockingQueue.run_bound _ _ mid hinit hmid
    refine ⟨mid, hmid, rfl, ?_, ?_⟩
    · rw [h2] at h1; exact h1
    · exact Int.natCast_nonneg _
  · obtain ⟨h1, h2⟩ := BlockingQueue.run_bound _ _ final hinit hrun
    refine ⟨rfl, ?_, Int.natCast_nonneg _⟩
    rw [h2] at h1; exact h1

/-- Witness of C24: a queue of capacity 2 after two `Put`, one `Take` and one more
`Put` holds 2 items. -/
theorem blocking_queue_bounded_witness :
    ((NewBlockingQueue 2 : BlockingQueue String).run
      [.put "a", .put "b", .take, .put "c"]).map BlockingQueue.Size = some 2 ∧
    (NewBlockingQueue 2 : BlockingQueue String).run [.put "a", .put "b", .put "c"] = none :=
  have h := blocking_queue_bounded (2 : Int) (by decide)
    [QueueOp.put "a", .put "b", .take, .put "c"] ⟨["b", "c"], 2⟩ rfl
  ⟨by rw [show (NewBlockingQueue 2 : BlockingQueue String).run
        [.put "a", .put "b", .take, .put "c"] = some ⟨["b", "c"], 2⟩ from rfl]
      exact congrArg some h.2.1, rfl⟩

/-- C25: task queue shutdown.  For every state of a `TaskQueue`, `TakeTask` returns
`(nil, false)` if and only if the queue is empty and closed, and then leaves it as
it is; whenever the queue is non-empty it returns the oldest task with `true` and
removes exactly that task, closed or not; on an empty queue that is not closed it
waits; and `AddTask` on a closed queue leaves the queue unchanged. -/
theorem task_queue_shutdown {τ : Type} (tq : TaskQueue τ) :
    ((∃ next, tq.TakeTask = some ((none, false), next)) ↔
      (tq.tasks = [] ∧ tq.closed = true)) ∧
    (tq.tasks = [] → tq.closed = true → tq.TakeTask = some ((none, false), tq)) ∧
    (∀ task rest, tq.tasks = task :: rest →
      tq.TakeTask = some ((some task, true), { tq with tasks := rest })) ∧
    (tq.tasks = [] → tq.closed = false → tq.TakeTask = none) ∧
    (tq.closed = true → ∀ task, tq.AddTask task = tq) := by
  obtain ⟨tasks, closed⟩ := tq
  refine ⟨?_, ?_, ?_, ?_, ?_⟩
  · cases tasks with
    | nil => cases closed <;> simp [TaskQueue.TakeTask]
    | cons t rest => simp [TaskQueue.TakeTask]
  · intro h1 h2
    simp only at h1 h2
    subst h1 h2
    simp [TaskQueue.TakeTask]
  · intro task rest h
    simp only at h
    subst h
    simp [TaskQueue.TakeTask]
  · intro h1 h2
    simp only at h1 h2
    subst h1 h2
    simp [TaskQueue.TakeTask]
  · intro h task
    simp only at h
    subst h
    simp [TaskQueue.AddTask]

/-- Witness of C25: a closed queue still hands out its oldest task, ignores a new
task, and reports the end once it is empty. -/
theorem task_queue_shutdown_witness :
    (⟨["t1", "t2"], true⟩ : TaskQueue String).TakeTask =
      some ((some "t1", true), ⟨["t2"], true⟩) ∧
    (⟨["t1", "t2"], true⟩ : TaskQueue String).AddTask "t3" = ⟨["t1", "t2"], true⟩ ∧
    (⟨[], true⟩ : TaskQueue String).TakeTask = some ((none, false), ⟨[], true⟩) :=
  ⟨(task_queue_shutdown (⟨["t1", "t2"], true⟩ : TaskQueue String)).2.2.1 "t1" ["t2"] rfl,
   (task_queue_shutdown (⟨["t1", "t2"], true⟩ : TaskQueue String)).2.2.2.2 rfl "t3",
   (task_queue_shutdown (⟨[], true⟩ : TaskQueue String)).2.1 rfl rfl⟩

end SyncCond

/-! ## The pipeline -/

namespace Pipeline

open SumOfSquares (wrap64)

theorem Net.step_flow (n next : Net) (st : NetStep) (h : n.step st = some next) :
    next.flow = n.flow := by
  obtain ⟨source, sq, ad, mu, out⟩ := n
  cases st with
  | feed =>
    cases source with
    | nil => simp [Net.step] at h
    | cons value rest =>
      cases sq with
      | some v => simp [Net.step] at h
      | none =>
        simp only [Net.step, Option.some.injEq] at h
        subst h
        simp [Net.flow, square, add, multiply]
  | squareToAdd =>
    cases sq with
    | none => simp [Net.step] at h
    | some value =>
      cases ad with
      | some v => simp [Net.step] at h
      | none =>
        simp only [Net.step, Option.some.injEq] at h
        subst h
        simp [Net.flow, square, add, multiply]
  | addToMultiply =>
    cases ad with
    | none => simp [Net.step] at h
    | some value =>
      cases mu with
      | some v => simp [Net.step] at h
      | none =>
        simp only [Net.step, Option.some.injEq] at h
        subst h
        simp [Net.flow, square, add, multiply]
  | collect =>
    cases mu with
    | none => simp [Net.step] at h
    | some value =>
      simp only [Net.step, Option.some.injEq] at h
      subst h
      simp [Net.flow, square, add, multiply]

theorem Net.run_flow (steps : List NetStep) :
    ∀ n final : Net, n.run steps = some final → final.flow = n.flow := by
  induction steps with
  | nil =>
    intro n final h
    simp only [Net.run, Option.some.injEq] at h
    rw [h]
  | cons st steps ih =>
    intro n final h
    simp only [Net.run] at h
    cases hstep : n.step st with
    | none => simp [hstep] at h
    | some next =>
      simp only [hstep] at h
      rw [ih next final h, Net.step_flow n next st hstep]

theorem Net.run_append (a : List NetStep) :
    ∀ (b : List NetStep) (n mid : Net), n.run a = some mid → n.run (a ++ b) = mid.run b := by
  induction a with
  | nil =>
    intro b n mid h
    simp only [Net.run, Option.some.injEq] at h
    rw [h]; rfl
  | cons st a ih =>
    intro b n mid h
    simp only [Net.run, List.cons_append] at h ⊢
    cases hstep : n.step st with
    | none => simp [hstep] at h
    | some next =>
      simp only [hstep] at h ⊢
      exact ih b next mid h

theorem Net.run_one_by_one (xs : List Int) :
    ∀ out : List Int, ∃ steps,
      (⟨xs, none, none, none, out⟩ : Net).run steps =
        some ⟨[], none, none, none, out ++ multiply (add (square xs))⟩ := by
  induction xs with
  | nil => intro out; exact ⟨[], by simp [Net.run, square, add, multiply]⟩
  | cons x xs ih =>
    intro out
    obtain ⟨steps, hsteps⟩ := ih (out ++ [wrap64 (wrap64 (wrap64 (x * x) + 10) * 2)])
    refine ⟨[.feed, .squareToAdd, .addToMultiply, .collect] ++ steps, ?_⟩
    rw [Net.run_append [.feed, .squareToAdd, .addToMultiply, .collect] steps
      ⟨x :: xs, none, none, none, out⟩
      ⟨xs, none, none, none, out ++ [wrap64 (wrap64 (wrap64 (x * x) + 10) * 2)]⟩ rfl, hsteps]
    simp [square, add, multiply]

/-- C22: the pipeline applies its stages left to right and preserves order.  For
every finite input sequence `xs`, `pipeline(xs, square, add, multiply)` emits, in
input order and with the same length, the value of `(x*x + 10)*2` in `int`
arithmetic for each `x` of `xs` (the exact integer when `x` is at most `2·10⁹` in
absolute value; input 3 yields 38); with no stages it returns the input unchanged;
and `pipeline(in, s1, …, sk) = sk(…s1(in)…)`.  The network of goroutines agrees:
in whatever order the communications on the channels happen, once the network has
finished the values collected are that sequence, and it can always finish. -/
theorem pipeline_maps_in_order (xs : List Int) :
    pipeline xs [square, add, multiply] = xs.map (fun x => wrap64 ((x * x + 10) * 2)) ∧
    (pipeline xs [square, add, multiply]).length = xs.length ∧
    ((∀ x ∈ xs, -2000000000 ≤ x ∧ x ≤ 2000000000) →
      pipeline xs [square, add, multiply] = xs.map (fun x => (x * x + 10) * 2)) ∧
    pipeline [3] [square, add, multiply] = [38] ∧
    pipeline xs [] = xs ∧
    (∀ s1 s2 s3 : Stage, pipeline xs [s1, s2, s3] = s3 (s2 (s1 xs))) ∧
    (∀ (stages : List Stage) (last : Stage),
      pipeline xs (stages ++ [last]) = last (pipeline xs stages)) ∧
    (∀ steps final, (Net.init xs).run steps = some final → final.finished = true →
      final.out = pipeline xs [square, add, multiply]) ∧
    (∃ steps final, (Net.init xs).run steps = some final ∧ final.finished = true) := by
  have hmap : pipeline xs [square, add, multiply] =
      xs.map (fun x => wrap64 ((x * x + 10) * 2)) := by
    simp only [pipeline, List.foldl_cons, List.foldl_nil, square, add, multiply,
      List.map_map]
    apply List.map_congr_left
    intro x _
    simp only [Function.comp_apply, wrap64]
    omega
  refine ⟨hmap, by rw [hmap, List.length_map], ?_, by decide, rfl, fun _ _ _ => rfl, ?_, ?_,
    ?_⟩
  · intro hsmall
    rw [hmap]
    apply List.map_congr_left
    intro x hx
    obtain ⟨h1, h2⟩ := hsmall x hx
    have h3 : 0 ≤ x * x := mul_self_nonneg x
    have h4 : x * x ≤ 4000000000000000000 := by nlinarith
    simp only [wrap64]
    omega
  · intro stages last
    simp [pipeline, List.foldl_append]
  · intro steps final hrun hfin
    have hflow := Net.run_flow steps (Net.init xs) final hrun
    obtain ⟨source, sq, ad, mu, out⟩ := final
    simp only [Net.finished, Bool.and_eq_true, List.isEmpty_iff, Option.isNone_iff_eq_none]
      at hfin
    obtain ⟨⟨⟨h1, h2⟩, h3⟩, h4⟩ := hfin
    subst h1 h2 h3 h4
    simp only [Net.flow, Net.init, square, add, multiply, Option.toList, List.map_nil,
      List.append_nil, List.nil_append] at hflow
    rw [hflow]
    rfl
  · obtain ⟨steps, hsteps⟩ := Net.run_one_by_one xs []
    exact ⟨steps, _, hsteps, rfl⟩

/-- Witness of C22: the run of `main`, inputs `1..5`. -/
theorem pipeline_maps_in_order_witness :
    pipeline [1, 2, 3, 4, 5] [square, add, multiply] = [22, 28, 38, 52, 70] :=
  ((pipeline_maps_in_order [1, 2, 3, 4, 5]).2.2.1 (by decide)).trans (by decide)

end Pipeline

/-! ## The worker pool -/

namespace WorkerPool

open SumOfSquares (wrap64)

theorem wrap64_add_left (a b : Int) : wrap64 (wrap64 a + b) = wrap64 (a + b) := by
  unfold wrap64; omega

theorem wrap64_add_right (a b : Int) : wrap64 (a + wrap64 b) = wrap64 (a + b) := by
  unfold wrap64; omega

theorem wrap64_of_small (a : Int) (h1 : -9223372036854775808 ≤ a)
    (h2 : a < 9223372036854775808) : wrap64 a = a := by
  unfold wrap64; omega

theorem foldl_wrap64_sum {β : Type} (f : β → Int) (l : List β) :
    ∀ a : Int, l.foldl (fun sum x => wrap64 (sum + f x)) (wrap64 a) =
      wrap64 (a + (l.map f).sum) := by
  induction l with
  | nil => intro a; simp
  | cons x l ih =>
    intro a
    simp only [List.foldl_cons, List.map_cons, List.sum_cons]
    rw [ih (wrap64 a + f x), add_assoc (wrap64 a), wrap64_add_left]

theorem foldl_wrap64_zero {β : Type} (f : β → Int) (l : List β) :
    l.foldl (fun sum x => wrap64 (sum + f x)) 0 = wrap64 ((l.map f).sum) := by
  have h := foldl_wrap64_sum f l 0
  have h0 : wrap64 0 = 0 := by decide
  rw [h0, zero_add] at h
  exact h

theorem wrap64_sum_wrap64 {β : Type} (g : β → Int) (l : List β) :
    wrap64 ((l.map fun x => wrap64 (g x)).sum) = wrap64 ((l.map g).sum) := by
  induction l with
  | nil => rfl
  | cons x l ih =>
    simp only [List.map_cons, List.sum_cons]
    rw [← wrap64_add_right, ih, wrap64_add_right, wrap64_add_left]

theorem sum_range_ite (n a : Nat) (v : Int) (h : a < n) :
    ((List.range n).map fun w => if a = w then v else 0).sum = v := by
  induction n with
  | zero => exact absurd h (Nat.not_lt_zero _)
  | succ n ih =>
    rw [List.range_succ, List.map_append, List.sum_append]
    by_cases ha : a = n
    · subst ha
      have hz : ((List.range a).map fun w => if a = w then v else 0).sum = 0 := by
        apply List.sum_eq_zero
        intro x hx
        simp only [List.mem_map, List.mem_range] at hx
        obtain ⟨w, hw, rfl⟩ := hx
        simp [Nat.ne_of_gt hw]
      simp [hz]
    · have hlt : a < n := by omega
      rw [ih hlt]
      simp [ha]

theorem sum_by_worker (f : Int → Int) (c : Nat × Int → Nat) (n : Nat) (l : List (Nat × Int))
    (hc : ∀ p ∈ l, c p < n) :
    ((List.range n).map fun w =>
      (((l.filter fun p => c p = w).map Prod.snd).map f).sum).sum =
      ((l.map Prod.snd).map f).sum := by
  induction l with
  | nil => simp
  | cons p l ih =>
    have hp := hc p (List.mem_cons_self _ _)
    have hl := ih fun q hq => hc q (List.mem_cons_of_mem _ hq)
    have hsplit : ∀ w, (((((p :: l).filter fun q => c q = w).map Prod.snd).map f).sum) =
        (if c p = w then f p.2 else 0) +
          ((((l.filter fun q => c q = w).map Prod.snd).map f).sum) := by
      intro w
      by_cases hw : c p = w <;> simp [List.filter_cons, hw]
    simp only [hsplit, List.sum_map_add, hl, sum_range_ite n (c p) (f p.2) hp, List.map_cons,
      List.sum_cons]

theorem tmod_thousand_bounds (y : Int) : -1000 < y.tmod 1000 ∧ y.tmod 1000 < 1000 := by
  constructor
  · by_cases hy : 0 ≤ y
    · have := Int.tmod_nonneg 1000 hy
      omega
    · have h1 : (-y).tmod 1000 < 1000 := Int.tmod_lt_of_pos _ (by decide)
      have h2 : (-y).tmod 1000 = -(y.tmod 1000) := by
        rw [Int.tmod_def, Int.tmod_def, Int.neg_tdiv]
        ring
      omega
  · exact Int.tmod_lt_of_pos _ (by decide)

theorem heavyRound_range (r : Int) : -998 ≤ heavyRound r ∧ heavyRound r ≤ 1000 := by
  unfold heavyRound
  obtain ⟨h1, h2⟩ := tmod_thousand_bounds (wrap64 (r * r))
  generalize (wrap64 (r * r)).tmod 1000 = t at h1 h2
  rw [wrap64_of_small (t + 1) (by omega) (by omega)]
  omega

theorem heavyRound_pos (r : Int) (h1 : -998 ≤ r) (h2 : r ≤ 1000) :
    1 ≤ heavyRound r ∧ heavyRound r ≤ 1000 := by
  unfold heavyRound
  have h3 : 0 ≤ r * r := mul_self_nonneg r
  have h4 : r * r ≤ 1000000 := by nlinarith
  rw [wrap64_of_small (r * r) (by omega) (by omega)]
  have h5 := Int.tmod_nonneg 1000 h3
  have h6 : (r * r).tmod 1000 < 1000 := Int.tmod_lt_of_pos _ (by decide)
  generalize (r * r).tmod 1000 = t at h5 h6
  rw [wrap64_of_small (t + 1) (by omega) (by omega)]
  omega

theorem heavyCompute_range (x : Int) : 1 ≤ heavyCompute x ∧ heavyCompute x ≤ 1000 := by
  have h : heavyCompute x = heavyRound (heavyRound (heavyRound^[98] x)) := by
    unfold heavyCompute heavyComputeRounds
    rw [show (100 : Nat) = 98 + 1 + 1 from rfl, Function.iterate_succ_apply',
      Function.iterate_succ_apply']
  rw [h]
  obtain ⟨h1, h2⟩ := heavyRound_range (heavyRound^[98] x)
  exact heavyRound_pos _ h1 h2

theorem specCompute_range (arr : List Int) :
    0 ≤ specCompute arr ∧ specCompute arr ≤ (arr.length : Int) * 1000 := by
  unfold specCompute
  induction arr with
  | nil => simp
  | cons x arr ih =>
    obtain ⟨h1, h2⟩ := heavyCompute_range x
    simp only [List.map_cons, List.sum_cons, List.length_cons, Nat.cast_add, Nat.cast_one]
    omega

theorem serialCompute_eq (arr : List Int) : serialCompute arr = wrap64 (specCompute arr) :=
  foldl_wrap64_zero heavyCompute arr

theorem concurrentCompute_eq (arr : List Int) (workerCount : Int) (sched : Nat → Nat) :
    concurrentCompute arr workerCount sched = wrap64 (specCompute arr) := by
  unfold concurrentCompute specCompute
  simp only
  generalize hworkers : (if workerCount ≤ 0 then 1 else workerCount.toNat) = workers
  have hpos : 0 < workers := by
    rw [← hworkers]
    split <;> omega
  have houter := foldl_wrap64_zero (fun v : Int => v)
    ((List.range workers).map fun workerIndex =>
      ((arr.enum.filter fun p => sched p.1 % workers = workerIndex).map Prod.snd).foldl
        (fun localSum item => wrap64 (localSum + heavyCompute item)) 0)
  simp only [List.map_id_fun', id_eq] at houter
  rw [houter]
  simp only [foldl_wrap64_zero heavyCompute]
  rw [wrap64_sum_wrap64 (fun w =>
    ((((arr.enum.filter fun p => decide (sched p.1 % workers = w)).map Prod.snd).map
      heavyCompute).sum)) (List.range workers)]
  rw [sum_by_worker heavyCompute (fun p => sched p.1 % workers) workers arr.enum
    (fun p _ => Nat.mod_lt _ hpos), List.enum_map_snd]

/-- C21: the worker-pool computation equals the serial one.  For every integer
slice `arr`, every `workerCount` (values `≤ 0` are treated as `1`) and every way
`sched` in which the elements are distributed among the workers,
`concurrentCompute(arr, workerCount) = serialCompute(arr)`, and both are the sum of
`heavyCompute(x)` over `arr` in `int64` arithmetic, which is the exact sum as long
as `1000 * len(arr)` is below `2^63`. -/
theorem worker_pool_equals_serial (arr : List Int) (workerCount : Int) (sched : Nat → Nat) :
    concurrentCompute arr workerCount sched = serialCompute arr ∧
    serialCompute arr = wrap64 (specCompute arr) ∧
    (workerCount ≤ 0 →
      concurrentCompute arr workerCount sched = concurrentCompute arr 1 sched) ∧
    ((arr.length : Int) * 1000 < 9223372036854775808 →
      serialCompute arr = specCompute arr ∧
      concurrentCompute arr workerCount sched = specCompute arr) := by
  refine ⟨by rw [concurrentCompute_eq, serialCompute_eq], serialCompute_eq arr,
    fun _ => by rw [concurrentCompute_eq, concurrentCompute_eq], ?_⟩
  intro hlen
  obtain ⟨h1, h2⟩ := specCompute_range arr
  have hsmall : wrap64 (specCompute arr) = specCompute arr :=
    wrap64_of_small _ (by omega) (by omega)
  exact ⟨by rw [serialCompute_eq, hsmall], by rw [concurrentCompute_eq, hsmall]⟩

/-- Witness of C21: a slice of seven elements, four workers, and a distribution
that sends the element at position `i` to worker `i * i + 1` modulo 4. -/
theorem worker_pool_equals_serial_witness :
    concurrentCompute [1, 2, 3, 4, 5, 6, 7] 4 (fun i => i * i + 1) =
      specCompute [1, 2, 3, 4, 5, 6, 7] :=
  ((worker_pool_equals_serial [1, 2, 3, 4, 5, 6, 7] 4 (fun i => i * i + 1)).2.2.2
    (by decide)).2

end WorkerPool

/-! ## The buffer pool -/

namespace BufferPool

theorem processWithoutPool_eq (data : List UInt8) :
    processWithoutPool data = prefixBytes ++ data ++ suffixBytes := by
  simp [processWithoutPool]

theorem Mem.get_cases (m : Mem) (pick : Option Nat) :
    (∃ i b, m.pool.get? i = some b ∧ m.get pick = (b, { m with pool := m.pool.eraseIdx i })) ∨
    m.get pick = m.alloc [] := by
  unfold Mem.get
  cases h : (pick.bind fun i => (m.pool.get? i).map fun b => (i, b)) with
  | none => exact Or.inr rfl
  | some p =>
    obtain ⟨i, b⟩ := p
    left
    cases pick with
    | none => simp at h
    | some j =>
      simp only [Option.some_bind, Option.map_eq_some', Prod.mk.injEq] at h
      obtain ⟨c, hc, hj, hcb⟩ := h
      subst hj hcb
      exact ⟨j, c, hc, rfl⟩

theorem mem_of_mem_eraseIdx (l : List Nat) (i a : Nat) (h : a ∈ l.eraseIdx i) : a ∈ l :=
  (List.eraseIdx_sublist l i).subset h

theorem processWithPool_frame (m : Mem) (pick : Option Nat) (data : List UInt8)
    (hwf : m.WellFormed) :
    (processWithPool m pick data).2.cells (processWithPool m pick data).1 =
      processWithoutPool data ∧
    (processWithPool m pick data).1 < (processWithPool m pick data).2.next ∧
    (processWithPool m pick data).1 ∉ (processWithPool m pick data).2.pool ∧
    (processWithPool m pick data).2.WellFormed ∧
    (∀ r, r < m.next → r ∉ m.pool →
      (processWithPool m pick data).2.cells r = m.cells r ∧
      r < (processWithPool m pick data).2.next ∧
      r ∉ (processWithPool m pick data).2.pool) := by
  rcases Mem.get_cases m pick with ⟨i, b, hb, hget⟩ | hget
  · have hbmem : b ∈ m.pool := List.get?_mem hb
    have hblt : b < m.next := hwf b hbmem
    have hsub : ∀ a ∈ m.pool.eraseIdx i, a < m.next :=
      fun a ha => hwf a (mem_of_mem_eraseIdx _ _ _ ha)
    simp only [processWithPool, hget, Mem.write, Mem.alloc, Mem.WellFormed]
    refine ⟨by simp [processWithoutPool], by simp, ?_, ?_, ?_⟩
    · simp only [List.mem_cons, not_or]
      exact ⟨by omega, fun h => absurd (hsub _ h) (by omega)⟩
    · intro a ha
      simp only [List.mem_cons] at ha
      rcases ha with rfl | ha
      · omega
      · have := hsub a ha
        omega
    · intro r hr hrp
      have hrb : r ≠ b := fun h => hrp (h ▸ hbmem)
      refine ⟨by simp [Nat.ne_of_lt hr, hrb], by omega, ?_⟩
      simp only [List.mem_cons, not_or]
      exact ⟨hrb, fun h => hrp (mem_of_mem_eraseIdx _ _ _ h)⟩
  · simp only [processWithPool, hget, Mem.write, Mem.alloc, Mem.WellFormed]
    refine ⟨by simp [processWithoutPool], by simp, ?_, ?_, ?_⟩
    · simp only [List.mem_cons, not_or]
      exact ⟨by omega, fun h => absurd (hwf _ h) (by omega)⟩
    · intro a ha
      simp only [List.mem_cons] at ha
      rcases ha with rfl | ha
      · omega
      · have := hwf a ha
        omega
    · intro r hr hrp
      refine ⟨?_, by omega, ?_⟩
      · have h1 : r ≠ m.next + 1 := by omega
        have h2 : r ≠ m.next := by omega
        simp [h1, h2]
      · simp only [List.mem_cons, not_or]
        exact ⟨by omega, hrp⟩

theorem Mem.after_frame (evs : List Later) :
    ∀ (m : Mem) (r : Nat), m.WellFormed → r < m.next → r ∉ m.pool →
      (m.after evs).cells r = m.cells r := by
  induction evs with
  | nil => intro m r _ _ _; rfl
  | cons ev evs ih =>
    intro m r hwf hr hrp
    cases ev with
    | call pick data =>
      obtain ⟨_, _, _, hwf2, hframe⟩ := processWithPool_frame m pick data hwf
      obtain ⟨h1, h2, h3⟩ := hframe r hr hrp
      have := ih (processWithPool m pick data).2 r hwf2 h2 h3
      simp only [Mem.after, List.foldl_cons] at this ⊢
      rw [this, h1]
    | drop i =>
      have hwf2 : Mem.WellFormed { m with pool := m.pool.eraseIdx i } :=
        fun a ha => hwf a (mem_of_mem_eraseIdx _ _ _ ha)
      have := ih { m with pool := m.pool.eraseIdx i } r hwf2 hr
        (fun h => hrp (mem_of_mem_eraseIdx _ _ _ h))
      simp only [Mem.after, List.foldl_cons] at this ⊢
      rw [this]

/-- C23: pooling does not change results.  For every byte slice `data`, whatever
buffers the pool holds and whatever they contain, and whichever buffer `Get` hands
out (or a new one), the slice returned by `processWithPool(data)` holds the same
bytes as `processWithoutPool(data)`, the prefix followed by `data` followed by the
suffix; it is a newly allocated slice that is not in the pool, and no later call of
`processWithPool` nor any dropping of pooled buffers changes its bytes. -/
theorem pooling_keeps_result (m : Mem) (hwf : m.WellFormed) (pick : Option Nat)
    (data : List UInt8) (later : List Later) :
    (processWithPool m pick data).2.cells (processWithPool m pick data).1 =
      processWithoutPool data ∧
    processWithoutPool data = prefixBytes ++ data ++ suffixBytes ∧
    m.next ≤ (processWithPool m pick data).1 ∧
    (processWithPool m pick data).1 ∉ (processWithPool m pick data).2.pool ∧
    ((processWithPool m pick data).2.after later).cells (processWithPool m pick data).1 =
      processWithoutPool data := by
  obtain ⟨h1, h2, h3, h4, _⟩ := processWithPool_frame m pick data hwf
  refine ⟨h1, processWithoutPool_eq data, ?_, h3, ?_⟩
  · rcases Mem.get_cases m pick with ⟨i, b, _, hget⟩ | hget
    · simp [processWithPool, hget, Mem.write, Mem.alloc]
    · simp [processWithPool, hget, Mem.write, Mem.alloc]
  · rw [Mem.after_frame later _ _ h4 h2 h3, h1]

/-- Witness of C23: the pool holds two buffers left non-empty by earlier calls;
the call reuses the second one, and a later call that reuses the same buffer for
other data leaves the first result as it was. -/
theorem pooling_keeps_result_witness :
    ((processWithPool ⟨fun _ => [9, 9, 9], 3, [0, 2]⟩ (some 1) [1, 2]).2.after
      [.call (some 0) [7]]).cells
      (processWithPool ⟨fun _ => [9, 9, 9], 3, [0, 2]⟩ (some 1) [1, 2]).1 =
      processWithoutPool [1, 2] :=
  (pooling_keeps_result ⟨fun _ => [9, 9, 9], 3, [0, 2]⟩ (by decide) (some 1) [1, 2]
    [.call (some 0) [7]]).2.2.2.2

end BufferPool
